import Mathlib

/-!
Verification development for the proof machinery of an Idemix-style
anonymous-credential engine (files `credential.go` and `proofs.go`).

Big integers (`math/big.Int`) are embedded as `ℤ`; the Euclidean remainder
`Int.emod` (`%`) matches Go's `big.Int.Mod` for a positive modulus.  Go maps
`map[int]*big.Int` are embedded as association lists `List (ℕ × ℤ)` with
overwrite-on-insert and first-match lookup; a missing key yields `none`, the
embedding of Go's `nil` pointer whose later arithmetic use panics.  Fallible
operations (slice indexing, modular inverse of a non-invertible element,
exponentiation with a negative exponent and non-invertible base, nil-pointer
dereference) are embedded in the `Option` monad, `none` standing for the
panicking executions.  The CSPRNG is embedded by passing the sampled values
explicitly; theorems about honest executions constrain them to the sampling
ranges stated in the specification.
-/

namespace Gabi

/-- System parameters: the named bit-lengths that govern element sizes
(`sysparams` is outside the two source files; modelled from the spec §3). -/
structure SystemParameters where
  Le : ℕ
  LeCommit : ℕ
  Lv : ℕ
  LvCommit : ℕ
  LvPrimeCommit : ℕ
  Lm : ℕ
  LmCommit : ℕ
deriving DecidableEq

/-- CL issuer public key `(N, S, Z, R[0..L-1])` (outside the two source
files; modelled from the spec §3). -/
structure PublicKey where
  N : ℤ
  S : ℤ
  Z : ℤ
  R : List ℤ
  Params : SystemParameters
deriving DecidableEq

/-- CL signature triple `(A, e, v)` (outside the two source files; modelled
from the spec §3). -/
structure CLSignature where
  A : ℤ
  E : ℤ
  V : ℤ
deriving DecidableEq

/-- `IdemixCredential` from `credential.go`: a CL signature, the issuer
public key and the attribute vector (`m[0]` is the holder secret key). -/
structure IdemixCredential where
  Signature : CLSignature
  Pk : PublicKey
  Attributes : List ℤ
deriving DecidableEq

/-- Go slice indexing `l[i]`: `none` embeds the index-out-of-range panic. -/
def listGet (l : List ℤ) (i : ℕ) : Option ℤ := l[i]?

/-- Go map assignment `m[k] = v`: overwrite an existing key or append. -/
def mapInsert : List (ℕ × ℤ) → ℕ → ℤ → List (ℕ × ℤ)
  | [], k, v => [(k, v)]
  | (k', v') :: rest, k, v =>
      if k' = k then (k, v) :: rest else (k', v') :: mapInsert rest k v

/-- Go map lookup `m[k]` for a `map[int]*big.Int`: a missing key gives the
zero value `nil`, embedded as `none`. -/
def mapLookup : List (ℕ × ℤ) → ℕ → Option ℤ
  | [], _ => none
  | (k', v') :: rest, k => if k' = k then some v' else mapLookup rest k

/-- The keys of an embedded Go map. -/
def mapKeys (m : List (ℕ × ℤ)) : List ℕ := m.map Prod.fst

/-- Modelled from the spec §6: modular inverse, as provided by the
big-integer library (`big.Int.ModInverse`).  For a positive modulus it
returns the unique inverse in `[0, n)` when one exists; `none` embeds the
`nil` result for a non-invertible argument (whose later use panics).  The
search formulation has exactly the value semantics of the library call and
keeps the definition kernel-evaluable. -/
def modInverse (a n : ℤ) : Option ℤ :=
  if 0 < n then
    ((List.range n.toNat).find?
      (fun b : ℕ => decide (a * (b : ℤ) % n = 1 % n))).map
      (fun b : ℕ => ((b : ℤ)))
  else none

/-- Modelled from the spec §6: modular exponentiation including negative
exponents via the modular inverse (the `modPow` helper of the source tree,
and `big.Int.Exp` which has the same semantics for a positive modulus).
`none` embeds the panicking/nil executions for a non-invertible base with a
negative exponent. -/
def modPow (x y m : ℤ) : Option ℤ :=
  if 0 ≤ y then some (x ^ y.toNat % m)
  else (modInverse x m).map (fun i => i ^ (-y).toNat % m)

/-- Bit-size of the challenge produced by the hash-to-integer function.
The spec names the hash abstractly (§1 non-goals, §4.6); the embedding
fixes a small digest so that witnesses evaluate. -/
def hashBits : ℕ := 8

/-- One absorption step of the embedded hash-to-integer function. -/
def hashAbsorb (a : ℕ) (x : ℤ) : ℕ :=
  (a * 37 + x.natAbs * 2 + (if x < 0 then 1 else 0) + 1) % 2 ^ hashBits

/-- Modelled from the spec §4.6: `hashCommit`, the fixed hash-to-integer
function `H(x_0, x_1, …)`; it deterministically maps a list of big integers
to a non-negative integer below `2 ^ hashBits`.  The claims under
verification use only its determinism and its output range. -/
def hashCommit (xs : List ℤ) : ℤ := ((xs.foldl hashAbsorb 5 : ℕ) : ℤ)

/-- `createChallenge` from `proofs.go`: sandwich the contributions between
context and nonce and hash. -/
def createChallenge (context nonce : ℤ) (contributions : List ℤ) : ℤ :=
  hashCommit ([context] ++ contributions ++ [nonce])

/-- Modelled from the spec §4.1: `CLSignature.Randomize` (outside the two
source files).  Draws `r` (passed explicitly here) and returns
`(A·S^r mod N, e, v − e·r)` without mutating the source signature.  Honest
executions sample `r ≥ 0`. -/
def CLSignature.randomize (s : CLSignature) (pk : PublicKey) (r : ℤ) : CLSignature :=
  { A := s.A * (pk.S ^ r.toNat % pk.N) % pk.N
    E := s.E
    V := s.V - s.E * r }

/-! ## getUndisclosedAttributes (`credential.go`) -/

/-- One step of the marking loop of `getUndisclosedAttributes`:
`check[v] = true`, with `none` embedding the index-out-of-range panic. -/
def setTrue (check : List Bool) (v : ℕ) : Option (List Bool) :=
  if v < check.length then some (check.set v true) else none

/-- The marking loop of `getUndisclosedAttributes`. -/
def markDisclosed : List ℕ → List Bool → Option (List Bool)
  | [], check => some check
  | v :: rest, check => do markDisclosed rest (← setTrue check v)

/-- The collection loop of `getUndisclosedAttributes`: indices whose mark
is still `false`, in ascending order. -/
def collectUnmarked : List Bool → ℕ → List ℕ
  | [], _ => []
  | b :: rest, i =>
      if b then collectUnmarked rest (i + 1) else i :: collectUnmarked rest (i + 1)

/-- `getUndisclosedAttributes` from `credential.go`: the ascending list of
attribute indices below `numAttributes` that are not disclosed.  `none`
embeds the panic on an out-of-range disclosed index. -/
def getUndisclosedAttributes (disclosedAttributes : List ℕ) (numAttributes : ℕ) :
    Option (List ℕ) :=
  (markDisclosed disclosedAttributes (List.replicate numAttributes false)).map
    (fun check => collectUnmarked check 0)

/-! ## Proof records (`proofs.go`) -/

/-- `ProofU` from `proofs.go`: issuance-commitment proof transcript. -/
structure ProofU where
  u : ℤ
  c : ℤ
  vPrimeResponse : ℤ
  sResponse : ℤ
deriving DecidableEq

/-- `ProofS` from `proofs.go`: issuer signature-correctness proof. -/
structure ProofS where
  c : ℤ
  eResponse : ℤ
deriving DecidableEq

/-- `ProofD` from `proofs.go`: disclosure-proof transcript. -/
structure ProofD where
  c : ℤ
  A : ℤ
  eResponse : ℤ
  vResponse : ℤ
  aResponses : List (ℕ × ℤ)
  aDisclosed : List (ℕ × ℤ)
deriving DecidableEq

/-! ## ProofU operations -/

/-- `ProofU.correctResponseSizes` from `proofs.go`. -/
def ProofU.correctResponseSizes (p : ProofU) (pk : PublicKey) : Bool :=
  let maximum : ℤ := 2 ^ (pk.Params.LvPrimeCommit + 1) - 1
  let minimum : ℤ := -maximum
  decide (minimum ≤ p.vPrimeResponse) && decide (p.vPrimeResponse ≤ maximum)

/-- `ProofU.VerifyWithChallenge` from `proofs.go`. -/
def ProofU.verifyWithChallenge (p : ProofU) (pk : PublicKey)
    (reconstructedChallenge : ℤ) : Bool :=
  p.correctResponseSizes pk && decide (p.c = reconstructedChallenge)

/-- `ProofU.reconstructUcommit` from `proofs.go`:
`u^(-c) * S^vPrimeResponse * R_0^sResponse mod N`. -/
def ProofU.reconstructUcommit (p : ProofU) (pk : PublicKey) : Option ℤ := do
  let Uc ← modPow p.u (-p.c) pk.N
  let Sv ← modPow pk.S p.vPrimeResponse pk.N
  let R0 ← listGet pk.R 0
  let R0s ← modPow R0 p.sResponse pk.N
  pure (Uc * Sv * R0s % pk.N)

/-- `ProofU.ChallengeContribution` from `proofs.go`. -/
def ProofU.challengeContribution (p : ProofU) (pk : PublicKey) : Option (List ℤ) :=
  (p.reconstructUcommit pk).map (fun uc => [p.u, uc])

/-- `ProofU.Verify` from `proofs.go`. -/
def ProofU.verify (p : ProofU) (pk : PublicKey) (context nonce : ℤ) : Option Bool :=
  (p.challengeContribution pk).map
    (fun contrib => p.verifyWithChallenge pk (createChallenge context nonce contrib))

/-! ## ProofS operations -/

/-- `ProofS.Verify` from `proofs.go`: reconstruct `ACommit = A^(c + eResponse·e)`
and `Q = A^e` modulo `N`, rehash, and compare with the proof's challenge. -/
def ProofS.verify (p : ProofS) (pk : PublicKey) (signature : CLSignature)
    (context nonce : ℤ) : Option Bool := do
  let ACommit ← modPow signature.A (p.c + p.eResponse * signature.E) pk.N
  let Q ← modPow signature.A signature.E pk.N
  let cPrime := hashCommit [context, Q, signature.A, nonce, ACommit]
  pure (decide (p.c = cPrime))

/-! ## ProofD operations -/

/-- `ProofD.correctResponseSizes` from `proofs.go`: range checks on the
`aResponses` values and on `eResponse` (the map iteration is embedded as the
association-list order; order-independence is proved below). -/
def ProofD.correctResponseSizes (p : ProofD) (pk : PublicKey) : Bool :=
  let maxA : ℤ := 2 ^ (pk.Params.LmCommit + 1) - 1
  let minA : ℤ := -maxA
  (p.aResponses.all fun pr => decide (minA ≤ pr.2) && decide (pr.2 ≤ maxA)) &&
  (let maxE : ℤ := 2 ^ (pk.Params.LeCommit + 1) - 1
   let minE : ℤ := -maxE
   decide (minE ≤ p.eResponse) && decide (p.eResponse ≤ maxE))

/-- The disclosed-side loop of `ProofD.reconstructZ`: multiply
`R_i^attribute mod N` into the accumulator (no intermediate reduction in the
source). -/
def numeratorLoop (pk : PublicKey) : ℤ → List (ℕ × ℤ) → Option ℤ
  | num, [] => some num
  | num, (i, attrVal) :: rest => do
      let ri ← listGet pk.R i
      let p ← modPow ri attrVal pk.N
      numeratorLoop pk (num * p) rest

/-- The undisclosed-side loop of `ProofD.reconstructZ`: multiply
`R_i^response mod N` into the accumulator (no intermediate reduction in the
source). -/
def rsLoop (pk : PublicKey) : ℤ → List (ℕ × ℤ) → Option ℤ
  | rs, [] => some rs
  | rs, (i, response) :: rest => do
      let ri ← listGet pk.R i
      let p ← modPow ri response pk.N
      rsLoop pk (rs * p) rest

/-- `ProofD.reconstructZ` from `proofs.go`. -/
def ProofD.reconstructZ (p : ProofD) (pk : PublicKey) : Option ℤ := do
  let num0 ← modPow p.A (2 ^ (pk.Params.Le - 1) : ℤ) pk.N
  let numerator ← numeratorLoop pk num0 p.aDisclosed
  let inv ← modInverse numerator pk.N
  let known := pk.Z * inv
  let knownC ← modPow known (-p.c) pk.N
  let Ae ← modPow p.A p.eResponse pk.N
  let Sv ← modPow pk.S p.vResponse pk.N
  let Rs ← rsLoop pk 1 p.aResponses
  pure (knownC * Ae * Rs * Sv % pk.N)

/-- `ProofD.VerifyWithChallenge` from `proofs.go`. -/
def ProofD.verifyWithChallenge (p : ProofD) (pk : PublicKey)
    (reconstructedChallenge : ℤ) : Bool :=
  p.correctResponseSizes pk && decide (p.c = reconstructedChallenge)

/-- `ProofD.ChallengeContribution` from `proofs.go`. -/
def ProofD.challengeContribution (p : ProofD) (pk : PublicKey) : Option (List ℤ) :=
  (p.reconstructZ pk).map (fun z => [p.A, z])

/-- `ProofD.Verify` from `proofs.go`. -/
def ProofD.verify (p : ProofD) (pk : PublicKey) (context nonce1 : ℤ) : Option Bool :=
  (p.challengeContribution pk).map
    (fun contrib => p.verifyWithChallenge pk (createChallenge context nonce1 contrib))

/-- `ProofD.SecretKeyResponse` from `proofs.go`: `aResponses[0]`; a `none`
embeds the `nil` returned for a map without key 0. -/
def ProofD.secretKeyResponse (p : ProofD) : Option ℤ := mapLookup p.aResponses 0

/-! ## The Proof interface and proof lists (`proofs.go`) -/

/-- The `Proof` interface of `proofs.go` as a tagged sum of its
implementations in the source files (`ProofU` and `ProofD`). -/
inductive Proof where
  | u : ProofU → Proof
  | d : ProofD → Proof
deriving DecidableEq

/-- Dispatch of `VerifyWithChallenge` over the `Proof` interface. -/
def Proof.verifyWithChallenge : Proof → PublicKey → ℤ → Bool
  | .u p, pk, ch => p.verifyWithChallenge pk ch
  | .d p, pk, ch => p.verifyWithChallenge pk ch

/-- Dispatch of `SecretKeyResponse` over the `Proof` interface (`ProofU`
returns its `sResponse` field, which is always present). -/
def Proof.secretKeyResponse : Proof → Option ℤ
  | .u p => some p.sResponse
  | .d p => p.secretKeyResponse

/-- Dispatch of `ChallengeContribution` over the `Proof` interface. -/
def Proof.challengeContribution : Proof → PublicKey → Option (List ℤ)
  | .u p, pk => p.challengeContribution pk
  | .d p, pk => p.challengeContribution pk

/-- Dispatch of per-variant `Verify` over the `Proof` interface. -/
def Proof.verify : Proof → PublicKey → ℤ → ℤ → Option Bool
  | .u p, pk, context, nonce => p.verify pk context nonce
  | .d p, pk, context, nonce => p.verify pk context nonce

/-- `ProofList.challengeContributions` from `proofs.go`: concatenate every
proof's challenge contribution against its own public key, in order. -/
def challengeContributions : List Proof → List PublicKey → Option (List ℤ)
  | [], _ => some []
  | _ :: _, [] => none
  | p :: ps, k :: ks => do
      let c ← p.challengeContribution k
      let rest ← challengeContributions ps ks
      pure (c ++ rest)

/-- The bound loop of `ProofList.Verify`: compare each proof's secret-key
response with the first proof's (a `nil` on either side panics, embedded as
`none`), then verify against the shared challenge; short-circuit on the
first failure. -/
def verifyBoundLoop (expectedSkResponse : Option ℤ) (expectedChallenge : ℤ) :
    List Proof → List PublicKey → Option Bool
  | [], _ => some true
  | _ :: _, [] => none
  | p :: ps, k :: ks => do
      let esk ← expectedSkResponse
      let psk ← p.secretKeyResponse
      if esk ≠ psk then pure false
      else if ¬ p.verifyWithChallenge k expectedChallenge then pure false
      else verifyBoundLoop expectedSkResponse expectedChallenge ps ks

/-- The unbound loop of `ProofList.Verify`: each proof verifies against a
challenge rebuilt from its own contribution; short-circuit on failure. -/
def verifyUnboundLoop (context nonce : ℤ) :
    List Proof → List PublicKey → Option Bool
  | [], _ => some true
  | _ :: _, [] => none
  | p :: ps, k :: ks => do
      let contrib ← p.challengeContribution k
      if ¬ p.verifyWithChallenge k (createChallenge context nonce contrib) then
        pure false
      else verifyUnboundLoop context nonce ps ks

/-- `ProofList.Verify` from `proofs.go`. -/
def ProofList.verify (pl : List Proof) (publicKeys : List PublicKey)
    (context nonce : ℤ) (shouldBeBound : Bool) : Option Bool :=
  if pl.length = 0 then some true
  else if pl.length ≠ publicKeys.length then some false
  else if shouldBeBound then do
    let contributions ← challengeContributions pl publicKeys
    let expectedChallenge := createChallenge context nonce contributions
    let expectedSkResponse :=
      match pl with
      | [] => none
      | p :: _ => p.secretKeyResponse
    verifyBoundLoop expectedSkResponse expectedChallenge pl publicKeys
  else verifyUnboundLoop context nonce pl publicKeys

/-! ## Disclosure-proof construction (`credential.go`) -/

/-- The commitment loop shared by `CreateDisclosureProof` and
`DisclosureProofBuilder.Commit`:
`Z = (Z * R_v^randomizers[v] mod N) mod N` over the undisclosed indices. -/
def commitZLoop (pk : PublicKey) (randomizers : List (ℕ × ℤ)) :
    ℤ → List ℕ → Option ℤ
  | z, [] => some z
  | z, v :: rest => do
      let rv ← listGet pk.R v
      let av ← mapLookup randomizers v
      let pw ← modPow rv av pk.N
      commitZLoop pk randomizers (z * pw % pk.N) rest

/-- The randomizer-sampling loop shared by `CreateDisclosureProof` and
`CreateDisclosureProofBuilder`: `m[v] = randomBigInt(LmCommit)` for each
undisclosed `v`, the sampled values supplied by the tape `tape`. -/
def buildRandomizers (tape : ℕ → ℤ) : List ℕ → List (ℕ × ℤ) → List (ℕ × ℤ)
  | [], acc => acc
  | v :: rest, acc => buildRandomizers tape rest (mapInsert acc v (tape v))

/-- The response loop shared by `CreateDisclosureProof` and
`DisclosureProofBuilder.CreateProof`:
`aResponses[v] = randomizers[v] + challenge * attributes[v]`. -/
def buildAResponses (challenge : ℤ) (attributes : List ℤ)
    (randomizers : List (ℕ × ℤ)) : List ℕ → List (ℕ × ℤ) → Option (List (ℕ × ℤ))
  | [], acc => some acc
  | v :: rest, acc => do
      let m ← listGet attributes v
      let rv ← mapLookup randomizers v
      buildAResponses challenge attributes randomizers rest
        (mapInsert acc v (rv + challenge * m))

/-- The disclosure loop shared by `CreateDisclosureProof` and
`DisclosureProofBuilder.CreateProof`: `aDisclosed[v] = attributes[v]`. -/
def buildADisclosed (attributes : List ℤ) :
    List ℕ → List (ℕ × ℤ) → Option (List (ℕ × ℤ))
  | [], acc => some acc
  | v :: rest, acc => do
      let m ← listGet attributes v
      buildADisclosed attributes rest (mapInsert acc v m)

/-- `IdemixCredential.CreateDisclosureProof` from `credential.go`.  The
CSPRNG outputs are passed explicitly: `rRand` for the signature
randomization, `eCommit` and `vCommit` for the scalar randomizers, and
`tape v` for the randomizer of undisclosed attribute `v` (the source
discards the error return of every `randomBigInt` call). -/
def createDisclosureProof (ic : IdemixCredential) (disclosedAttributes : List ℕ)
    (context nonce1 rRand eCommit vCommit : ℤ) (tape : ℕ → ℤ) : Option ProofD := do
  let undisclosedAttributes ←
    getUndisclosedAttributes disclosedAttributes ic.Attributes.length
  let randSig := ic.Signature.randomize ic.Pk rRand
  let aCommits := buildRandomizers tape undisclosedAttributes []
  let Ae ← modPow randSig.A eCommit ic.Pk.N
  let Sv ← modPow ic.Pk.S vCommit ic.Pk.N
  let Z ← commitZLoop ic.Pk aCommits (Ae * Sv % ic.Pk.N) undisclosedAttributes
  let c := hashCommit [context, randSig.A, Z, nonce1]
  let ePrime := randSig.E - 2 ^ (ic.Pk.Params.Le - 1)
  let eResponse := eCommit + c * ePrime
  let vResponse := vCommit + c * randSig.V
  let aResponses ←
    buildAResponses c ic.Attributes aCommits undisclosedAttributes []
  let aDisclosed ← buildADisclosed ic.Attributes disclosedAttributes []
  pure { c := c, A := randSig.A, eResponse := eResponse, vResponse := vResponse
         aResponses := aResponses, aDisclosed := aDisclosed }

/-- `DisclosureProofBuilder` from `credential.go`: the transient state of
one two-phase proof round. -/
structure DisclosureProofBuilder where
  randomizedSignature : CLSignature
  eCommit : ℤ
  vCommit : ℤ
  attrRandomizers : List (ℕ × ℤ)
  z : ℤ
  disclosedAttributes : List ℕ
  undisclosedAttributes : List ℕ
  pk : PublicKey
  attributes : List ℤ
deriving DecidableEq

/-- `IdemixCredential.CreateDisclosureProofBuilder` from `credential.go`.
CSPRNG outputs are passed explicitly as in `createDisclosureProof`. -/
def createDisclosureProofBuilder (ic : IdemixCredential)
    (disclosedAttributes : List ℕ) (rRand eCommit vCommit : ℤ) (tape : ℕ → ℤ) :
    Option DisclosureProofBuilder := do
  let undisclosed ← getUndisclosedAttributes disclosedAttributes ic.Attributes.length
  pure { randomizedSignature := ic.Signature.randomize ic.Pk rRand
         eCommit := eCommit
         vCommit := vCommit
         attrRandomizers := buildRandomizers tape undisclosed []
         z := 0
         disclosedAttributes := disclosedAttributes
         undisclosedAttributes := undisclosed
         pk := ic.Pk
         attributes := ic.Attributes }

/-- `DisclosureProofBuilder.Commit` from `credential.go`: record the
caller-supplied randomizer at index 0, compute the commitment `Z`, and
return the updated builder together with the contribution `[A, Z]`. -/
def DisclosureProofBuilder.commit (d : DisclosureProofBuilder)
    (skRandomizer : ℤ) : Option (DisclosureProofBuilder × List ℤ) := do
  let randomizers := mapInsert d.attrRandomizers 0 skRandomizer
  let Ae ← modPow d.randomizedSignature.A d.eCommit d.pk.N
  let Sv ← modPow d.pk.S d.vCommit d.pk.N
  let z ← commitZLoop d.pk randomizers (Ae * Sv % d.pk.N) d.undisclosedAttributes
  pure ({ d with attrRandomizers := randomizers, z := z },
        [d.randomizedSignature.A, z])

/-- `DisclosureProofBuilder.CreateProof` from `credential.go`. -/
def DisclosureProofBuilder.createProof (d : DisclosureProofBuilder)
    (challenge : ℤ) : Option Proof := do
  let ePrime := d.randomizedSignature.E - 2 ^ (d.pk.Params.Le - 1)
  let eResponse := d.eCommit + challenge * ePrime
  let vResponse := d.vCommit + challenge * d.randomizedSignature.V
  let aResponses ←
    buildAResponses challenge d.attributes d.attrRandomizers
      d.undisclosedAttributes []
  let aDisclosed ← buildADisclosed d.attributes d.disclosedAttributes []
  pure (Proof.d { c := challenge, A := d.randomizedSignature.A
                  eResponse := eResponse, vResponse := vResponse
                  aResponses := aResponses, aDisclosed := aDisclosed })

/-- The commit loop of `BuildProofList`: call `Commit(skCommitment)` on
every builder in order, returning the updated builders and the concatenated
commitment values. -/
def commitAll (skCommitment : ℤ) :
    List DisclosureProofBuilder → Option (List DisclosureProofBuilder × List ℤ)
  | [] => some ([], [])
  | b :: bs => do
      let (b', contrib) ← b.commit skCommitment
      let (bs', rest) ← commitAll skCommitment bs
      pure (b' :: bs', contrib ++ rest)

/-- The response loop of `BuildProofList`: call `CreateProof(challenge)` on
every builder in order. -/
def createProofsAll (challenge : ℤ) :
    List DisclosureProofBuilder → Option (List Proof)
  | [] => some []
  | b :: bs => do
      let p ← b.createProof challenge
      let ps ← createProofsAll challenge bs
      pure (p :: ps)

/-- `BuildProofList` from `proofs.go`, for the proof builders available in
the source files (`DisclosureProofBuilder`).  The shared `skCommitment` is
sampled by `randomBigInt(params.LmCommit)` with the error discarded; it is
passed explicitly here. -/
def buildProofList (context nonce : ℤ)
    (proofBuilders : List DisclosureProofBuilder) (skCommitment : ℤ) :
    Option (List Proof) := do
  let (builders, commitmentValues) ← commitAll skCommitment proofBuilders
  let challenge := createChallenge context nonce commitmentValues
  createProofsAll challenge builders

/-! ## Association-list (Go map) lemmas -/

theorem mapLookup_insert (m : List (ℕ × ℤ)) (k q : ℕ) (v : ℤ) :
    mapLookup (mapInsert m k v) q = if q = k then some v else mapLookup m q := by
  induction m with
  | nil =>
      by_cases hq : q = k
      · simp [mapInsert, mapLookup, hq]
      · have hk : ¬ k = q := fun h => hq h.symm
        simp [mapInsert, mapLookup, hq, hk]
  | cons hd tl ih =>
      obtain ⟨a, b⟩ := hd
      simp only [mapInsert]
      by_cases hak : a = k
      · subst hak
        simp only [if_pos rfl, mapLookup]
        by_cases hq : q = a
        · simp [hq]
        · have ha : ¬ a = q := fun h => hq h.symm
          simp [hq, ha]
      · simp only [if_neg hak, mapLookup, ih]
        by_cases haq : a = q
        · subst haq
          simp [hak]
        · simp [haq]

theorem mapInsert_eq_append (m : List (ℕ × ℤ)) (k : ℕ) (v : ℤ)
    (h : k ∉ mapKeys m) : mapInsert m k v = m ++ [(k, v)] := by
  induction m with
  | nil => simp [mapInsert]
  | cons hd tl ih =>
      obtain ⟨a, b⟩ := hd
      have hak : a ≠ k := by
        intro hc
        exact h (by simp [mapKeys, hc])
      simp only [mapInsert, hak, if_false, List.cons_append, List.cons.injEq, true_and]
      exact ih (fun hc => h (by simp [mapKeys] at hc ⊢; exact Or.inr hc))

theorem mapKeys_append (m1 m2 : List (ℕ × ℤ)) :
    mapKeys (m1 ++ m2) = mapKeys m1 ++ mapKeys m2 := by
  simp [mapKeys]

theorem mapLookup_buildRandomizers (tape : ℕ → ℤ) :
    ∀ (l : List ℕ) (acc : List (ℕ × ℤ)) (v : ℕ),
      mapLookup (buildRandomizers tape l acc) v =
        if v ∈ l then some (tape v) else mapLookup acc v := by
  intro l
  induction l with
  | nil => simp [buildRandomizers]
  | cons w rest ih =>
      intro acc v
      rw [buildRandomizers, ih]
      by_cases hv : v ∈ rest
      · simp [hv]
      · by_cases hw : v = w
        · subst hw
          simp [hv, mapLookup_insert]
        · simp [hv, hw, mapLookup_insert]

theorem listGet_eq_getD (l : List ℤ) (i : ℕ) (h : i < l.length) :
    listGet l i = some (l.getD i 0) := by
  simp [listGet, List.getElem?_eq_getElem h, List.getD_eq_getElem l 0 h]

theorem buildADisclosed_eq (attrs : List ℤ) :
    ∀ (l : List ℕ) (acc : List (ℕ × ℤ)), l.Nodup →
      (∀ v ∈ l, v < attrs.length) → (∀ v ∈ l, v ∉ mapKeys acc) →
      buildADisclosed attrs l acc =
        some (acc ++ l.map (fun v => (v, attrs.getD v 0))) := by
  intro l
  induction l with
  | nil => simp [buildADisclosed]
  | cons v rest ih =>
      intro acc hnd hlt hdisj
      have hv : v < attrs.length := hlt v (by simp)
      rw [buildADisclosed, listGet_eq_getD attrs v hv]
      simp only [Option.bind_eq_bind, Option.some_bind]
      rw [mapInsert_eq_append acc v _ (hdisj v (by simp))]
      rw [ih (acc ++ [(v, attrs.getD v 0)]) hnd.of_cons
        (fun w hw => hlt w (by simp [hw]))
        (fun w hw => by
          have hwv : w ≠ v := by
            intro hc
            subst hc
            exact (List.nodup_cons.mp hnd).1 hw
          rw [mapKeys_append, List.mem_append]
          rintro (hc | hc)
          · exact hdisj w (by simp [hw]) hc
          · exact hwv (by simpa [mapKeys] using hc))]
      simp

theorem buildAResponses_eq (c : ℤ) (attrs : List ℤ) (rand : List (ℕ × ℤ))
    (γ : ℕ → ℤ) :
    ∀ (l : List ℕ) (acc : List (ℕ × ℤ)), l.Nodup →
      (∀ v ∈ l, v < attrs.length) →
      (∀ v ∈ l, mapLookup rand v = some (γ v)) →
      (∀ v ∈ l, v ∉ mapKeys acc) →
      buildAResponses c attrs rand l acc =
        some (acc ++ l.map (fun v => (v, γ v + c * attrs.getD v 0))) := by
  intro l
  induction l with
  | nil => simp [buildAResponses]
  | cons v rest ih =>
      intro acc hnd hlt hγ hdisj
      have hv : v < attrs.length := hlt v (by simp)
      rw [buildAResponses, listGet_eq_getD attrs v hv, hγ v (by simp)]
      simp only [Option.bind_eq_bind, Option.some_bind]
      rw [mapInsert_eq_append acc v _ (hdisj v (by simp))]
      rw [ih (acc ++ [(v, γ v + c * attrs.getD v 0)]) hnd.of_cons
        (fun w hw => hlt w (by simp [hw]))
        (fun w hw => hγ w (by simp [hw]))
        (fun w hw => by
          have hwv : w ≠ v := by
            intro hc
            subst hc
            exact (List.nodup_cons.mp hnd).1 hw
          rw [mapKeys_append, List.mem_append]
          rintro (hc | hc)
          · exact hdisj w (by simp [hw]) hc
          · exact hwv (by simpa [mapKeys] using hc))]
      simp

/-! ## Characterization of getUndisclosedAttributes -/

/-- The value computed by `getUndisclosedAttributes` on in-range input: the
ascending list of indices below `n` that are not in `dis`. -/
def undisclosedSpec (dis : List ℕ) (n : ℕ) : List ℕ :=
  (List.range n).filter (fun i => !(decide (i ∈ dis)))

theorem markDisclosed_spec :
    ∀ (dis : List ℕ) (check : List Bool), (∀ v ∈ dis, v < check.length) →
      ∃ check', markDisclosed dis check = some check' ∧
        check'.length = check.length ∧
        ∀ j : ℕ, check'[j]? = check[j]?.map (fun b => b || decide (j ∈ dis)) := by
  intro dis
  induction dis with
  | nil =>
      intro check _
      refine ⟨check, rfl, rfl, fun j => ?_⟩
      cases check[j]? <;> simp
  | cons v rest ih =>
      intro check hlt
      have hv : v < check.length := hlt v (by simp)
      have hst : setTrue check v = some (check.set v true) := by
        simp [setTrue, hv]
      obtain ⟨check', h1, h2, h3⟩ := ih (check.set v true)
        (fun w hw => by simpa using hlt w (by simp [hw]))
      refine ⟨check', ?_, by simpa using h2, fun j => ?_⟩
      · rw [markDisclosed, hst]
        simpa using h1
      · rw [h3 j, List.getElem?_set]
        by_cases hj : j = v
        · subst hj
          simp [List.getElem?_eq_getElem hv, hv]
        · have hvj : ¬ v = j := fun hc => hj hc.symm
          simp only [hvj, if_false]
          cases check[j]? <;> simp [hj]

theorem collectUnmarked_spec (p : ℕ → Bool) :
    ∀ (check : List Bool) (i0 : ℕ),
      (∀ j, j < check.length → check[j]? = some (p (i0 + j))) →
      collectUnmarked check i0 =
        ((List.range check.length).map (fun j => j + i0)).filter (fun k => !p k) := by
  intro check
  induction check with
  | nil => simp [collectUnmarked]
  | cons b rest ih =>
      intro i0 hchar
      have hb : b = p i0 := by simpa using hchar 0 (by simp)
      have hrest : ∀ j, j < rest.length → rest[j]? = some (p ((i0 + 1) + j)) := by
        intro j h
        have := hchar (j + 1) (by simpa using Nat.succ_lt_succ h)
        have harith : i0 + (j + 1) = (i0 + 1) + j := by omega
        simpa [harith] using this
      rw [List.length_cons, List.range_succ_eq_map, List.map_cons, List.map_map]
      have hcomp : ((fun j => j + i0) ∘ (fun j => j + 1)) = (fun j => j + (i0 + 1)) := by
        funext j
        simp
        omega
      rw [hcomp, List.filter_cons, collectUnmarked, hb, ih (i0 + 1) hrest]
      cases hp : p i0 <;> simp [hp]

theorem getUndisclosedAttributes_eq (dis : List ℕ) (n : ℕ)
    (h : ∀ v ∈ dis, v < n) :
    getUndisclosedAttributes dis n = some (undisclosedSpec dis n) := by
  obtain ⟨check', h1, h2, h3⟩ := markDisclosed_spec dis (List.replicate n false)
    (fun v hv => by simpa using h v hv)
  have hlen : check'.length = n := by simpa using h2
  rw [getUndisclosedAttributes, h1]
  have hchar : ∀ j, j < check'.length → check'[j]? = some (decide (j ∈ dis)) := by
    intro j hj
    rw [h3 j]
    have hjn : j < n := by omega
    simp [List.getElem?_replicate, hjn]
  rw [Option.map_some']
  congr 1
  rw [collectUnmarked_spec (fun k => decide (k ∈ dis)) check' 0
    (fun j hj => by simpa using hchar j hj)]
  rw [hlen]
  unfold undisclosedSpec
  congr 1
  rw [show ((fun j => j + 0) : ℕ → ℕ) = id from funext (fun j => by simp)]
  simp

theorem undisclosedSpec_nodup (dis : List ℕ) (n : ℕ) :
    (undisclosedSpec dis n).Nodup :=
  (List.nodup_range n).filter _

theorem mem_undisclosedSpec (dis : List ℕ) (n : ℕ) (i : ℕ) :
    i ∈ undisclosedSpec dis n ↔ i < n ∧ i ∉ dis := by
  simp [undisclosedSpec, List.mem_filter]

/-! ## Modular-arithmetic bridging lemmas -/

theorem intCast_natCast_zero (n : ℕ) : (((n : ℤ) : ℤ) : ZMod n) = 0 := by
  push_cast
  exact ZMod.natCast_self n

theorem intCast_emod_natCast (n : ℕ) (a : ℤ) :
    ((a % (n : ℤ) : ℤ) : ZMod n) = (a : ZMod n) :=
  ZMod.intCast_mod a n

theorem isUnit_intCast_of_gcd (n : ℕ) (a : ℤ) (hg : Int.gcd a (n : ℤ) = 1) :
    IsUnit ((a : ZMod n)) := by
  obtain ⟨u, v, huv⟩ := Int.isCoprime_iff_gcd_eq_one.mpr hg
  have hcast : (u : ZMod n) * (a : ZMod n) + (v : ZMod n) * 0 = 1 := by
    rw [← intCast_natCast_zero n]
    have := congrArg (fun t : ℤ => ((t : ZMod n))) huv
    push_cast at this ⊢
    simpa using this
  exact isUnit_of_mul_eq_one _ _ (by rw [mul_comm]; simpa using hcast)

theorem modInverse_eq_some (n : ℕ) (hn : 1 < n) (a b : ℤ)
    (h : modInverse a (n : ℤ) = some b) :
    0 ≤ b ∧ b < (n : ℤ) ∧ (a : ZMod n) * (b : ZMod n) = 1 := by
  have hn0 : (0 : ℤ) < (n : ℤ) := by
    exact_mod_cast Nat.lt_of_lt_of_le Nat.zero_lt_one hn.le
  rw [modInverse, if_pos hn0] at h
  cases hf : (List.range ((n : ℤ)).toNat).find?
      (fun b : ℕ => decide (a * (b : ℤ) % (n : ℤ) = 1 % (n : ℤ))) with
  | none => rw [hf] at h; exact absurd h (by simp)
  | some b0 =>
      rw [hf] at h
      obtain rfl : ((b0 : ℕ) : ℤ) = b := by
        simpa using h
      have hmem : b0 ∈ List.range (n : ℤ).toNat := List.mem_of_find?_eq_some hf
      have hb0n : b0 < (n : ℤ).toNat := List.mem_range.mp hmem
      have hpred : a * ((b0 : ℕ) : ℤ) % (n : ℤ) = 1 % (n : ℤ) := by
        have := List.find?_some hf
        simpa using this
      refine ⟨Int.natCast_nonneg b0, by omega, ?_⟩
      have hcast := congrArg (fun t : ℤ => ((t : ZMod n))) hpred
      simp only at hcast
      rw [intCast_emod_natCast, intCast_emod_natCast] at hcast
      push_cast at hcast ⊢
      exact hcast

theorem modInverse_isSome_of_isUnit (n : ℕ) (hn : 1 < n) (a : ℤ)
    (hu : IsUnit ((a : ZMod n))) : ∃ b, modInverse a (n : ℤ) = some b := by
  have hnz : NeZero n := ⟨by omega⟩
  have hn0 : (0 : ℤ) < (n : ℤ) := by
    exact_mod_cast Nat.lt_of_lt_of_le Nat.zero_lt_one hn.le
  obtain ⟨u, hu⟩ := hu
  set b0 : ℕ := ((u⁻¹ : (ZMod n)ˣ) : ZMod n).val with hb0
  have hb0n : b0 < n := ZMod.val_lt _
  have hb0c : ((b0 : ℕ) : ZMod n) = ((u⁻¹ : (ZMod n)ˣ) : ZMod n) :=
    ZMod.natCast_rightInverse _
  have hmul : ((a * ((b0 : ℕ) : ℤ) : ℤ) : ZMod n) = (((1 : ℤ)) : ZMod n) := by
    push_cast
    rw [hb0c, ← hu, Units.mul_inv]
  have hpred : a * ((b0 : ℕ) : ℤ) % (n : ℤ) = 1 % (n : ℤ) :=
    (ZMod.intCast_eq_intCast_iff _ _ _).mp hmul
  have hfind : ((List.range ((n : ℤ)).toNat).find?
      (fun b : ℕ => decide (a * (b : ℤ) % (n : ℤ) = 1 % (n : ℤ)))).isSome := by
    rw [List.find?_isSome]
    refine ⟨b0, List.mem_range.mpr (by simpa using hb0n), by simpa using hpred⟩
  obtain ⟨b1, hb1⟩ := Option.isSome_iff_exists.mp hfind
  exact ⟨((b1 : ℕ) : ℤ), by rw [modInverse, if_pos hn0, hb1, Option.map_some']⟩

theorem modPow_of_nonneg (x y m : ℤ) (h : 0 ≤ y) :
    modPow x y m = some (x ^ y.toNat % m) := by
  simp [modPow, h]

theorem modPow_eq_some_unit (n : ℕ) (hn : 1 < n) (x y : ℤ) (u : (ZMod n)ˣ)
    (hx : (x : ZMod n) = u) :
    ∃ r, modPow x y (n : ℤ) = some r ∧ 0 ≤ r ∧ r < (n : ℤ) ∧
      ((r : ZMod n) = ((u ^ y : (ZMod n)ˣ) : ZMod n)) := by
  have hn0 : (0 : ℤ) < (n : ℤ) := by exact_mod_cast Nat.lt_of_lt_of_le Nat.zero_lt_one hn.le
  by_cases hy : 0 ≤ y
  · refine ⟨x ^ y.toNat % (n : ℤ), modPow_of_nonneg x y _ hy,
      Int.emod_nonneg _ (by omega), Int.emod_lt_of_pos _ hn0, ?_⟩
    rw [intCast_emod_natCast]
    push_cast
    rw [hx, ← Units.val_pow_eq_pow_val]
    congr 1
    rw [← zpow_natCast, Int.toNat_of_nonneg hy]
  · have hu : IsUnit ((x : ZMod n)) := hx ▸ u.isUnit
    obtain ⟨b, hb⟩ := modInverse_isSome_of_isUnit n hn x hu
    obtain ⟨hb0, hbn, hbinv⟩ := modInverse_eq_some n hn x b hb
    refine ⟨b ^ (-y).toNat % (n : ℤ), ?_, Int.emod_nonneg _ (by omega),
      Int.emod_lt_of_pos _ hn0, ?_⟩
    · rw [modPow, if_neg hy, hb]
      rfl
    · have hbu : (b : ZMod n) = ((u⁻¹ : (ZMod n)ˣ) : ZMod n) := by
        calc (b : ZMod n) = 1 * (b : ZMod n) := (one_mul _).symm
          _ = (((u⁻¹ : (ZMod n)ˣ) : ZMod n) * ((u : (ZMod n)ˣ) : ZMod n)) * (b : ZMod n) := by
              rw [Units.inv_mul]
          _ = ((u⁻¹ : (ZMod n)ˣ) : ZMod n) * (((u : (ZMod n)ˣ) : ZMod n) * (b : ZMod n)) := by
              ring
          _ = ((u⁻¹ : (ZMod n)ˣ) : ZMod n) := by
              rw [← hx, hbinv, mul_one]
      rw [intCast_emod_natCast]
      push_cast
      rw [hbu, ← Units.val_pow_eq_pow_val]
      congr 1
      have hyneg : 0 ≤ -y := by omega
      rw [← zpow_natCast, Int.toNat_of_nonneg hyneg, inv_zpow, zpow_neg, inv_inv]

theorem int_eq_of_intCast_eq (n : ℕ) (a b : ℤ)
    (h : ((a : ZMod n)) = ((b : ZMod n)))
    (ha0 : 0 ≤ a) (han : a < (n : ℤ)) (hb0 : 0 ≤ b) (hbn : b < (n : ℤ)) :
    a = b := by
  have hmod : a % (n : ℤ) = b % (n : ℤ) := (ZMod.intCast_eq_intCast_iff a b n).mp h
  rwa [Int.emod_eq_of_lt ha0 han, Int.emod_eq_of_lt hb0 hbn] at hmod

/-! ## Claim C2: ProofD.Verify accepts iff ranges hold and challenge matches -/

/-- C2: for every `ProofD`, public key, context and nonce, `Verify` returns
true iff (a) every `aResponses` value lies in the symmetric
`2 ^ (LmCommit + 1) - 1` range and `eResponse` in the symmetric
`2 ^ (LeCommit + 1) - 1` range, and (b) the challenge recomputed as
`H(context, A, reconstructZ(pk), nonce)` equals the proof's `c`; an
out-of-range response rejects even when the challenge would match. -/
theorem proofD_verify_iff_sizes_and_challenge (p : ProofD) (pk : PublicKey)
    (context nonce : ℤ) :
    p.verify pk context nonce = some true ↔
      ((∀ pr ∈ p.aResponses,
          -(2 ^ (pk.Params.LmCommit + 1) - 1) ≤ pr.2 ∧
            pr.2 ≤ 2 ^ (pk.Params.LmCommit + 1) - 1) ∧
        (-(2 ^ (pk.Params.LeCommit + 1) - 1) ≤ p.eResponse ∧
          p.eResponse ≤ 2 ^ (pk.Params.LeCommit + 1) - 1) ∧
        ∃ z, p.reconstructZ pk = some z ∧
          p.c = hashCommit [context, p.A, z, nonce]) := by
  unfold ProofD.verify ProofD.challengeContribution
  cases hz : p.reconstructZ pk with
  | none => simp
  | some z =>
      simp only [Option.map_some', Option.some.injEq, Option.some.injEq]
      rw [show createChallenge context nonce [p.A, z] =
        hashCommit [context, p.A, z, nonce] from rfl]
      unfold ProofD.verifyWithChallenge ProofD.correctResponseSizes
      simp only [Bool.and_eq_true, List.all_eq_true, decide_eq_true_iff]
      constructor
      · rintro ⟨⟨ha, he1, he2⟩, hc⟩
        exact ⟨fun pr hpr => (ha pr hpr : _ ∧ _), ⟨he1, he2⟩, z, rfl, hc⟩
      · rintro ⟨ha, ⟨he1, he2⟩, z', hz', hc⟩
        obtain rfl : z = z' := hz'
        exact ⟨⟨fun pr hpr => ha pr hpr, he1, he2⟩, hc⟩

/-! ## Claim C6: ProofS.Verify characterization -/

/-- C6: `ProofS.Verify(pk, sig, context, nonce)` computes
`ACommit = A ^ (c + eResponse * e) mod N` and `Q = A ^ e mod N`, rehashes
`H(context, Q, A, nonce, ACommit)`, and accepts exactly when the proof's
`c` equals that hash. -/
theorem proofS_verify_iff_challenge_match (p : ProofS) (pk : PublicKey)
    (signature : CLSignature) (context nonce : ℤ) :
    p.verify pk signature context nonce = some true ↔
      ∃ ACommit Q,
        modPow signature.A (p.c + p.eResponse * signature.E) pk.N = some ACommit ∧
        modPow signature.A signature.E pk.N = some Q ∧
        p.c = hashCommit [context, Q, signature.A, nonce, ACommit] := by
  unfold ProofS.verify
  cases h1 : modPow signature.A (p.c + p.eResponse * signature.E) pk.N with
  | none => simp [h1]
  | some ac =>
      cases h2 : modPow signature.A signature.E pk.N with
      | none => simp [h1, h2]
      | some q =>
          simp only [h1, h2, Option.bind_eq_bind, Option.some_bind,
            Option.some.injEq, decide_eq_true_iff]
          constructor
          · intro hc
            exact ⟨ac, q, rfl, rfl, by simpa using hc⟩
          · rintro ⟨ac', q', hac, hq, hc⟩
            obtain rfl : ac = ac' := hac
            obtain rfl : q = q' := hq
            simpa using hc

/-! ## Claim C9: reconstructZ is independent of map enumeration order -/

/-- Multiplication lifted to the fallible results of the factor
computations inside `reconstructZ`. -/
def optMul (a b : Option ℤ) : Option ℤ := a.bind (fun x => b.map (fun y => x * y))

theorem optMul_comm (a b : Option ℤ) : optMul a b = optMul b a := by
  cases a <;> cases b <;> simp [optMul, mul_comm]

theorem optMul_some_some (x y : ℤ) : optMul (some x) (some y) = some (x * y) := rfl

theorem optMul_assoc (a b c : Option ℤ) :
    optMul (optMul a b) c = optMul a (optMul b c) := by
  cases a <;> cases b <;> cases c <;> simp [optMul, mul_assoc]

/-- One factor of the products computed by `reconstructZ`:
`R_i ^ value mod N` with the slice access. -/
def factorD (pk : PublicKey) (pr : ℕ × ℤ) : Option ℤ :=
  (listGet pk.R pr.1).bind (fun ri => modPow ri pr.2 pk.N)

/-- The fallible product of the factors of an association list. -/
def factorProd (pk : PublicKey) (l : List (ℕ × ℤ)) : Option ℤ :=
  l.foldr (fun pr acc => optMul (factorD pk pr) acc) (some 1)

theorem numeratorLoop_eq_factorProd (pk : PublicKey) :
    ∀ (l : List (ℕ × ℤ)) (num : ℤ),
      numeratorLoop pk num l = optMul (some num) (factorProd pk l) := by
  intro l
  induction l with
  | nil => simp [numeratorLoop, factorProd, optMul]
  | cons pr rest ih =>
      intro num
      obtain ⟨i, a⟩ := pr
      rw [show factorProd pk ((i, a) :: rest) =
        optMul (factorD pk (i, a)) (factorProd pk rest) from rfl]
      cases hf : factorD pk (i, a) with
      | none =>
          have hg : listGet pk.R i = none ∨
              ∃ ri, listGet pk.R i = some ri ∧ modPow ri a pk.N = none := by
            cases hr : listGet pk.R i with
            | none => exact Or.inl rfl
            | some ri =>
                refine Or.inr ⟨ri, rfl, ?_⟩
                have := hf
                rw [factorD] at this
                simpa [hr] using this
          rcases hg with hr | ⟨ri, hr, hp⟩
          · simp [numeratorLoop, hr, optMul]
          · simp [numeratorLoop, hr, hp, optMul]
      | some p =>
          have hg : ∃ ri, listGet pk.R i = some ri ∧ modPow ri a pk.N = some p := by
            rw [factorD] at hf
            cases hr : listGet pk.R i with
            | none => simp [hr] at hf
            | some ri => exact ⟨ri, rfl, by simpa [hr] using hf⟩
          obtain ⟨ri, hr, hp⟩ := hg
          rw [show numeratorLoop pk num ((i, a) :: rest) =
            (listGet pk.R i).bind (fun ri =>
              (modPow ri a pk.N).bind (fun p => numeratorLoop pk (num * p) rest))
            from rfl]
          rw [hr]
          simp only [Option.some_bind, hp]
          rw [ih (num * p), ← optMul_some_some num p, optMul_assoc]

theorem rsLoop_eq_factorProd (pk : PublicKey) :
    ∀ (l : List (ℕ × ℤ)) (rs : ℤ),
      rsLoop pk rs l = optMul (some rs) (factorProd pk l) := by
  intro l
  induction l with
  | nil => simp [rsLoop, factorProd, optMul]
  | cons pr rest ih =>
      intro rs
      obtain ⟨i, a⟩ := pr
      rw [show factorProd pk ((i, a) :: rest) =
        optMul (factorD pk (i, a)) (factorProd pk rest) from rfl]
      cases hf : factorD pk (i, a) with
      | none =>
          have hg : listGet pk.R i = none ∨
              ∃ ri, listGet pk.R i = some ri ∧ modPow ri a pk.N = none := by
            cases hr : listGet pk.R i with
            | none => exact Or.inl rfl
            | some ri =>
                refine Or.inr ⟨ri, rfl, ?_⟩
                have := hf
                rw [factorD] at this
                simpa [hr] using this
          rcases hg with hr | ⟨ri, hr, hp⟩
          · simp [rsLoop, hr, optMul]
          · simp [rsLoop, hr, hp, optMul]
      | some p =>
          have hg : ∃ ri, listGet pk.R i = some ri ∧ modPow ri a pk.N = some p := by
            rw [factorD] at hf
            cases hr : listGet pk.R i with
            | none => simp [hr] at hf
            | some ri => exact ⟨ri, rfl, by simpa [hr] using hf⟩
          obtain ⟨ri, hr, hp⟩ := hg
          rw [show rsLoop pk rs ((i, a) :: rest) =
            (listGet pk.R i).bind (fun ri =>
              (modPow ri a pk.N).bind (fun p => rsLoop pk (rs * p) rest))
            from rfl]
          rw [hr]
          simp only [Option.some_bind, hp]
          rw [ih (rs * p), ← optMul_some_some rs p, optMul_assoc]

theorem factorProd_perm (pk : PublicKey) {l l' : List (ℕ × ℤ)}
    (h : List.Perm l l') : factorProd pk l = factorProd pk l' := by
  induction h with
  | nil => rfl
  | cons x _ ih => exact congrArg (optMul (factorD pk x)) ih
  | swap x y l =>
      show optMul (factorD pk y) (optMul (factorD pk x) (factorProd pk l)) =
        optMul (factorD pk x) (optMul (factorD pk y) (factorProd pk l))
      rw [← optMul_assoc, optMul_comm (factorD pk y) (factorD pk x), optMul_assoc]
  | trans _ _ ih1 ih2 => rw [ih1, ih2]

theorem all_perm {α : Type} (f : α → Bool) {l l' : List α}
    (h : List.Perm l l') : l.all f = l'.all f := by
  cases hl' : l'.all f
  · rw [List.all_eq_false] at hl' ⊢
    obtain ⟨x, hx, hfx⟩ := hl'
    exact ⟨x, h.mem_iff.mpr hx, hfx⟩
  · rw [List.all_eq_true] at hl' ⊢
    exact fun x hx => hl' x (h.mem_iff.mp hx)

/-- C9: `reconstructZ` — and with it `ChallengeContribution` and `Verify` —
depends on the `aResponses` and `aDisclosed` mappings only up to the order
in which their entries are enumerated: permuting the entries leaves all
three results unchanged (modular multiplication is commutative). -/
theorem reconstructZ_enumeration_order_independent (p q : ProofD)
    (pk : PublicKey) (hc : p.c = q.c) (hA : p.A = q.A)
    (he : p.eResponse = q.eResponse) (hv : p.vResponse = q.vResponse)
    (har : List.Perm p.aResponses q.aResponses)
    (had : List.Perm p.aDisclosed q.aDisclosed) :
    p.reconstructZ pk = q.reconstructZ pk ∧
    p.challengeContribution pk = q.challengeContribution pk ∧
    ∀ context nonce : ℤ,
      p.verify pk context nonce = q.verify pk context nonce := by
  have hnum : ∀ num : ℤ, numeratorLoop pk num p.aDisclosed =
      numeratorLoop pk num q.aDisclosed := by
    intro num
    rw [numeratorLoop_eq_factorProd, numeratorLoop_eq_factorProd,
      factorProd_perm pk had]
  have hrs : ∀ rs : ℤ, rsLoop pk rs p.aResponses = rsLoop pk rs q.aResponses := by
    intro rs
    rw [rsLoop_eq_factorProd, rsLoop_eq_factorProd, factorProd_perm pk har]
  have hrz : p.reconstructZ pk = q.reconstructZ pk := by
    unfold ProofD.reconstructZ
    rw [hA, hc, he, hv]
    simp only [hnum, hrs]
  have hsizes : p.correctResponseSizes pk = q.correctResponseSizes pk := by
    unfold ProofD.correctResponseSizes
    rw [he]
    exact congrArg (fun b => b &&
      (decide (-(2 ^ (pk.Params.LeCommit + 1) - 1) ≤ q.eResponse) &&
        decide (q.eResponse ≤ 2 ^ (pk.Params.LeCommit + 1) - 1)))
      (all_perm (fun pr : ℕ × ℤ =>
        decide (-(2 ^ (pk.Params.LmCommit + 1) - 1) ≤ pr.2) &&
        decide (pr.2 ≤ 2 ^ (pk.Params.LmCommit + 1) - 1)) har)
  have hvwc : ∀ ch : ℤ, p.verifyWithChallenge pk ch = q.verifyWithChallenge pk ch := by
    intro ch
    unfold ProofD.verifyWithChallenge
    rw [hsizes, hc]
  have hcontrib : p.challengeContribution pk = q.challengeContribution pk := by
    unfold ProofD.challengeContribution
    rw [hrz, hA]
  refine ⟨hrz, hcontrib, fun context nonce => ?_⟩
  unfold ProofD.verify
  rw [hcontrib]
  cases q.challengeContribution pk with
  | none => rfl
  | some contrib => simp [hvwc]

/-! ## Unit-group helpers for the honest-prover algebra -/

theorem cast_eq_inv_of_mul_eq_one {n : ℕ} (u : (ZMod n)ˣ) (b : ℤ)
    (h : ((u : (ZMod n)ˣ) : ZMod n) * ((b : ZMod n)) = 1) :
    ((b : ZMod n)) = ((u⁻¹ : (ZMod n)ˣ) : ZMod n) := by
  calc ((b : ZMod n)) = 1 * ((b : ZMod n)) := (one_mul _).symm
    _ = (((u⁻¹ : (ZMod n)ˣ) : ZMod n) * ((u : (ZMod n)ˣ) : ZMod n)) * ((b : ZMod n)) := by
        rw [Units.inv_mul]
    _ = ((u⁻¹ : (ZMod n)ˣ) : ZMod n) * (((u : (ZMod n)ˣ) : ZMod n) * ((b : ZMod n))) := by
        rw [mul_assoc]
    _ = ((u⁻¹ : (ZMod n)ˣ) : ZMod n) := by rw [h, mul_one]

theorem list_prod_zpow_split {G : Type} [CommGroup G] (u : ℕ → G)
    (γ m : ℕ → ℤ) (c : ℤ) :
    ∀ l : List ℕ,
      (l.map fun v => u v ^ (γ v + c * m v)).prod =
        (l.map fun v => u v ^ γ v).prod * ((l.map fun v => u v ^ m v).prod) ^ c := by
  intro l
  induction l with
  | nil => simp
  | cons v rest ih =>
      simp only [List.map_cons, List.prod_cons, ih, mul_zpow]
      rw [zpow_add, mul_comm c (m v), zpow_mul]
      simp [mul_assoc, mul_left_comm, mul_comm]

theorem range_prod_split {G : Type} [CommMonoid G] (L : ℕ) (dis : List ℕ)
    (hdnd : dis.Nodup) (hdlt : ∀ i ∈ dis, i < L) (f : ℕ → G) :
    ((List.range L).map f).prod =
      ((dis.map f).prod) * (((undisclosedSpec dis L).map f).prod) := by
  have hperm : List.Perm
      (((List.range L).filter (fun i => decide (i ∈ dis))) ++ undisclosedSpec dis L)
      (List.range L) :=
    List.filter_append_perm (fun i => decide (i ∈ dis)) (List.range L)
  have hperm2 : List.Perm ((List.range L).filter (fun i => decide (i ∈ dis))) dis := by
    rw [List.perm_ext_iff_of_nodup ((List.nodup_range L).filter _) hdnd]
    intro a
    simp only [List.mem_filter, List.mem_range, decide_eq_true_iff]
    exact ⟨fun h => h.2, fun h => ⟨hdlt a h, h⟩⟩
  calc ((List.range L).map f).prod
      = ((((List.range L).filter (fun i => decide (i ∈ dis))) ++
          undisclosedSpec dis L).map f).prod := ((hperm.map f).prod_eq).symm
    _ = (((List.range L).filter (fun i => decide (i ∈ dis))).map f).prod *
          ((undisclosedSpec dis L).map f).prod := by
        rw [List.map_append, List.prod_append]
    _ = ((dis.map f).prod) * ((undisclosedSpec dis L).map f).prod := by
        rw [(hperm2.map f).prod_eq]

theorem factorProd_spec (pk : PublicKey) (n : ℕ) (hn : 1 < n)
    (hNn : pk.N = (n : ℤ)) (ρ : ℕ → (ZMod n)ˣ) :
    ∀ l : List (ℕ × ℤ),
      (∀ pr ∈ l, ∃ rv, listGet pk.R pr.1 = some rv ∧
        ((rv : ZMod n)) = ((ρ pr.1 : (ZMod n)ˣ) : ZMod n)) →
      ∃ w, factorProd pk l = some w ∧
        ((w : ZMod n)) =
          (((l.map fun pr => ρ pr.1 ^ pr.2).prod : (ZMod n)ˣ) : ZMod n) := by
  intro l
  induction l with
  | nil =>
      intro _
      exact ⟨1, rfl, by simp⟩
  | cons pr rest ih =>
      intro hall
      obtain ⟨rv, hrv, hrvc⟩ := hall pr (by simp)
      obtain ⟨pw, hpw, _, _, hpwc⟩ :=
        modPow_eq_some_unit n hn rv pr.2 (ρ pr.1) hrvc

      obtain ⟨w, hw, hwc⟩ := ih (fun q hq => hall q (by simp [hq]))
      refine ⟨pw * w, ?_, ?_⟩
      · show optMul (factorD pk pr) (factorProd pk rest) = some (pw * w)
        have hfd : factorD pk pr = some pw := by
          rw [factorD, hrv, Option.some_bind, hNn]
          exact hpw
        rw [hw, hfd]
        rfl
      · push_cast
        rw [hpwc, hwc, List.map_cons, List.prod_cons, Units.val_mul]

theorem commitZLoop_spec (pk : PublicKey) (n : ℕ) (hn : 1 < n)
    (hNn : pk.N = (n : ℤ)) (randomizers : List (ℕ × ℤ)) (γ : ℕ → ℤ)
    (ρ : ℕ → (ZMod n)ˣ) :
    ∀ (und : List ℕ) (z : ℤ), 0 ≤ z → z < (n : ℤ) →
      (∀ v ∈ und, mapLookup randomizers v = some (γ v)) →
      (∀ v ∈ und, ∃ rv, listGet pk.R v = some rv ∧
        ((rv : ZMod n)) = ((ρ v : (ZMod n)ˣ) : ZMod n)) →
      ∃ zc, commitZLoop pk randomizers z und = some zc ∧
        0 ≤ zc ∧ zc < (n : ℤ) ∧
        ((zc : ZMod n)) = (z : ZMod n) *
          (((und.map fun v => ρ v ^ γ v).prod : (ZMod n)ˣ) : ZMod n) := by
  intro und
  induction und with
  | nil =>
      intro z hz0 hzn _ _
      exact ⟨z, rfl, hz0, hzn, by simp⟩
  | cons v rest ih =>
      intro z hz0 hzn hlook hget
      obtain ⟨rv, hrv, hrvc⟩ := hget v (by simp)
      obtain ⟨pw, hpw, _, _, hpwc⟩ :=
        modPow_eq_some_unit n hn rv (γ v) (ρ v) hrvc
      have hn0 : (0 : ℤ) < (n : ℤ) := by
        exact_mod_cast Nat.lt_of_lt_of_le Nat.zero_lt_one hn.le
      have hz' : ((z * pw % pk.N : ℤ) : ZMod n) =
          (z : ZMod n) * ((((ρ v ^ γ v) : (ZMod n)ˣ) : ZMod n)) := by
        rw [hNn, intCast_emod_natCast]
        push_cast
        rw [hpwc]
      obtain ⟨zc, hzc, hzc0, hzcn, hzcc⟩ := ih (z * pw % pk.N)
        (by rw [hNn]; exact Int.emod_nonneg _ (by omega))
        (by rw [hNn]; exact Int.emod_lt_of_pos _ hn0)
        (fun w hw => hlook w (by simp [hw]))
        (fun w hw => hget w (by simp [hw]))
      refine ⟨zc, ?_, hzc0, hzcn, ?_⟩
      · rw [show commitZLoop pk randomizers z (v :: rest) =
          (listGet pk.R v).bind (fun rv =>
            (mapLookup randomizers v).bind (fun av =>
              (modPow rv av pk.N).bind (fun pw =>
                commitZLoop pk randomizers (z * pw % pk.N) rest))) from rfl]
        have hpw' : modPow rv (γ v) pk.N = some pw := by rw [hNn]; exact hpw
        rw [hrv, Option.some_bind, hlook v (by simp), Option.some_bind,
          hpw', Option.some_bind]
        exact hzc
      · rw [hzcc, hz', List.map_cons, List.prod_cons, Units.val_mul]
        rw [mul_assoc]

theorem intCast_list_prod (n : ℕ) (l : List ℤ) :
    ((l.prod : ℤ) : ZMod n) = (l.map (fun x : ℤ => ((x : ZMod n)))).prod := by
  induction l with
  | nil => simp
  | cons x rest ih =>
      rw [List.prod_cons, Int.cast_mul, List.map_cons, List.prod_cons, ih]

theorem unitsVal_list_prod (n : ℕ) (l : List ((ZMod n)ˣ)) :
    ((l.prod : (ZMod n)ˣ) : ZMod n) =
      (l.map (fun u : (ZMod n)ˣ => ((u : (ZMod n)ˣ) : ZMod n))).prod := by
  induction l with
  | nil => simp
  | cons x rest ih =>
      rw [List.prod_cons, Units.val_mul, List.map_cons, List.prod_cons, ih]

/-! ## Validity of a credential triple -/

/-- Validity of a triple `(pk, sig, attrs)` per the spec: the CL
verification equation `A^e * S^v * prod R_i^(m_i) = Z (mod N)` (glossary),
an RSA-like modulus (`N > 1`, §3) whose group elements `S`, `A` and the
bases `R_i` are invertible, one base per attribute slot (§3), non-negative
`e`, `v` and attributes, and the element sizes governed by the system
parameters (§3, §8): attributes and the offset `e - 2^(Le-1)` are small
enough that the Fiat-Shamir responses pass the verifier's range checks for
every challenge below `2 ^ hashBits`. -/
structure ValidTriple (pk : PublicKey) (sig : CLSignature) (attrs : List ℤ) :
    Prop where
  hN : 1 < pk.N
  hLe : 0 < pk.Params.Le
  hRlen : pk.R.length = attrs.length
  hSunit : Int.gcd pk.S pk.N = 1
  hAunit : Int.gcd sig.A pk.N = 1
  hRunit : ∀ x ∈ pk.R, Int.gcd x pk.N = 1
  hE0 : 0 ≤ sig.E
  hV0 : 0 ≤ sig.V
  hAttrs0 : ∀ x ∈ attrs, 0 ≤ x
  hAttrsSize : ∀ x ∈ attrs, 2 ^ hashBits * x.natAbs ≤ 2 ^ pk.Params.LmCommit
  hESize : 2 ^ hashBits * (sig.E - 2 ^ (pk.Params.Le - 1)).natAbs ≤
    2 ^ pk.Params.LeCommit
  hCL : (sig.A ^ sig.E.toNat * pk.S ^ sig.V.toNat *
      ((List.range attrs.length).map
        (fun i => pk.R.getD i 0 ^ (attrs.getD i 0).toNat)).prod) % pk.N
    = pk.Z % pk.N

theorem validTriple_units (pk : PublicKey) (sig : CLSignature) (attrs : List ℤ)
    (hv : ValidTriple pk sig attrs) :
    ∃ (n : ℕ) (uA uS uZ : (ZMod n)ˣ) (uR : ℕ → (ZMod n)ˣ),
      1 < n ∧ pk.N = (n : ℤ) ∧
      ((sig.A : ZMod n)) = ↑uA ∧ ((pk.S : ZMod n)) = ↑uS ∧
      ((pk.Z : ZMod n)) = ↑uZ ∧
      (∀ i, i < attrs.length →
        ∃ ri, listGet pk.R i = some ri ∧ ((ri : ZMod n)) = ↑(uR i)) ∧
      uA ^ sig.E * uS ^ sig.V *
        ((List.range attrs.length).map (fun i => uR i ^ (attrs.getD i 0))).prod
        = uZ := by
  set n : ℕ := pk.N.toNat with hndef
  have hNn : pk.N = (n : ℤ) := (Int.toNat_of_nonneg (by
    have := hv.hN
    omega)).symm
  have hn : 1 < n := by
    have := hv.hN
    omega
  have huA : IsUnit ((sig.A : ZMod n)) :=
    isUnit_intCast_of_gcd n sig.A (by rw [← hNn]; exact hv.hAunit)
  have huS : IsUnit ((pk.S : ZMod n)) :=
    isUnit_intCast_of_gcd n pk.S (by rw [← hNn]; exact hv.hSunit)
  have huR : ∀ i, i < attrs.length → IsUnit ((pk.R.getD i 0 : ZMod n)) := by
    intro i hi
    have hiR : i < pk.R.length := by rw [hv.hRlen]; exact hi
    refine isUnit_intCast_of_gcd n _ (by
      rw [← hNn]
      exact hv.hRunit _ (by
        rw [List.getD_eq_getElem pk.R 0 hiR]
        exact List.getElem_mem hiR))
  set L : ℕ := attrs.length with hLdef
  set uR : ℕ → (ZMod n)ˣ :=
    (fun i => if h : i < L then (huR i h).unit else 1) with huRdef
  have huRc : ∀ i, i < L → ((pk.R.getD i 0 : ZMod n)) = ↑(uR i) := by
    intro i hi
    rw [huRdef]
    simp only [dif_pos hi]
    exact ((huR i hi).unit_spec).symm
  set uZn : (ZMod n)ˣ := huA.unit ^ sig.E.toNat * huS.unit ^ sig.V.toNat *
    ((List.range L).map (fun i => uR i ^ (attrs.getD i 0).toNat)).prod with huZdef
  have hprodcast :
      (((((List.range L).map
          (fun i => pk.R.getD i 0 ^ (attrs.getD i 0).toNat)).prod : ℤ)) : ZMod n) =
      ↑(((List.range L).map (fun i => uR i ^ (attrs.getD i 0).toNat)).prod) := by
    rw [intCast_list_prod, unitsVal_list_prod, List.map_map, List.map_map]
    refine congrArg List.prod (List.map_congr_left ?_)
    intro i hi
    have hiL : i < L := List.mem_range.mp hi
    simp only [Function.comp]
    push_cast
    rw [huRc i hiL]
  have hZcast : ((pk.Z : ZMod n)) = ↑uZn := by
    have hcast := congrArg (fun t : ℤ => ((t : ZMod n))) hv.hCL
    simp only at hcast
    rw [hNn, intCast_emod_natCast, intCast_emod_natCast] at hcast
    rw [← hcast]
    rw [Int.cast_mul, Int.cast_mul, Int.cast_pow, Int.cast_pow]
    rw [huZdef, Units.val_mul, Units.val_mul, Units.val_pow_eq_pow_val,
      Units.val_pow_eq_pow_val]
    rw [huA.unit_spec, huS.unit_spec, hprodcast]
  refine ⟨n, huA.unit, huS.unit, uZn, uR, hn, hNn, huA.unit_spec.symm,
    huS.unit_spec.symm, hZcast, ?_, ?_⟩
  · intro i hi
    have hiR : i < pk.R.length := by rw [hv.hRlen]; exact hi
    refine ⟨pk.R.getD i 0, listGet_eq_getD pk.R i hiR, huRc i hi⟩
  · rw [huZdef]
    have he : huA.unit ^ sig.E = huA.unit ^ sig.E.toNat := by
      rw [← zpow_natCast, Int.toNat_of_nonneg hv.hE0]
    have hvv : huS.unit ^ sig.V = huS.unit ^ sig.V.toNat := by
      rw [← zpow_natCast, Int.toNat_of_nonneg hv.hV0]
    rw [he, hvv]
    congr 1
    congr 1
    refine List.map_congr_left ?_
    intro i hi
    have hiL : i < L := List.mem_range.mp hi
    have hm0 : 0 ≤ attrs.getD i 0 := by
      refine hv.hAttrs0 _ ?_
      rw [List.getD_eq_getElem attrs 0 hiL]
      exact List.getElem_mem hiL
    rw [← zpow_natCast, Int.toNat_of_nonneg hm0]

/-- The Σ-protocol cancellation at the heart of disclosure-proof
verification, stated over an abstract commutative group: the verifier's
recombination of the responses reproduces the prover's commitment. -/
theorem honest_unit_algebra {G : Type} [CommGroup G] (a s pγ pu pd z : G)
    (Dd E' V' c eC vC : ℤ)
    (hz : a ^ E' * s ^ V' * (pd * pu) = z) :
    (z * (a ^ Dd * pd)⁻¹) ^ (-c) * a ^ (eC + c * (E' - Dd)) * (pγ * pu ^ c) *
      s ^ (vC + c * V') = a ^ eC * s ^ vC * pγ := by
  have hK : z * (a ^ Dd * pd)⁻¹ = a ^ (E' - Dd) * s ^ V' * pu := by
    apply mul_right_cancel (b := a ^ Dd * pd)
    rw [inv_mul_cancel_right, ← hz]
    calc a ^ E' * s ^ V' * (pd * pu)
        = (a ^ (E' - Dd) * a ^ Dd) * s ^ V' * (pd * pu) := by
          rw [← zpow_add, sub_add_cancel]
      _ = a ^ (E' - Dd) * s ^ V' * pu * (a ^ Dd * pd) := by
          simp only [mul_assoc, mul_comm, mul_left_comm]
  rw [hK, mul_zpow, mul_zpow, ← zpow_mul, ← zpow_mul]
  calc a ^ ((E' - Dd) * -c) * s ^ (V' * -c) * pu ^ (-c) *
        a ^ (eC + c * (E' - Dd)) * (pγ * pu ^ c) * s ^ (vC + c * V')
      = (a ^ ((E' - Dd) * -c) * a ^ (eC + c * (E' - Dd))) *
          (s ^ (V' * -c) * s ^ (vC + c * V')) * (pu ^ (-c) * pu ^ c) * pγ := by
        simp only [mul_assoc, mul_comm, mul_left_comm]
    _ = a ^ ((E' - Dd) * -c + (eC + c * (E' - Dd))) *
          s ^ (V' * -c + (vC + c * V')) * pu ^ (-c + c) * pγ := by
        rw [← zpow_add, ← zpow_add, ← zpow_add]
    _ = a ^ eC * s ^ vC * pγ := by
        rw [show (E' - Dd) * -c + (eC + c * (E' - Dd)) = eC from by ring,
          show V' * -c + (vC + c * V') = vC from by ring,
          show -c + c = 0 from by ring, zpow_zero, mul_one]

/-- Honest verification core: a `ProofD` whose fields carry the honest
Fiat-Shamir responses reconstructs exactly the prover's commitment
integer `zc`. -/
theorem reconstructZ_honest (pk : PublicKey) (n : ℕ) (hn : 1 < n)
    (hNn : pk.N = (n : ℤ)) (uA' uS uZ : (ZMod n)ˣ) (uR : ℕ → (ZMod n)ˣ)
    (L : ℕ)
    (hRget : ∀ i, i < L →
      ∃ ri, listGet pk.R i = some ri ∧ ((ri : ZMod n)) = ↑(uR i))
    (hS : ((pk.S : ZMod n)) = ↑uS) (hZ : ((pk.Z : ZMod n)) = ↑uZ)
    (A' : ℤ) (hA' : ((A' : ZMod n)) = ↑uA')
    (E' V' : ℤ) (m : ℕ → ℤ)
    (hCL' : uA' ^ E' * uS ^ V' *
      ((List.range L).map (fun i => uR i ^ m i)).prod = uZ)
    (dis : List ℕ) (hdnd : dis.Nodup) (hdlt : ∀ i ∈ dis, i < L)
    (γ : ℕ → ℤ) (c eC vC : ℤ)
    (zc : ℤ) (hzc0 : 0 ≤ zc) (hzcn : zc < (n : ℤ))
    (hzc : ((zc : ZMod n)) = ↑(uA' ^ eC * uS ^ vC *
      (((undisclosedSpec dis L).map fun v => uR v ^ γ v).prod)))
    (p : ProofD) (hpc : p.c = c) (hpA : p.A = A')
    (hpe : p.eResponse = eC + c * (E' - 2 ^ (pk.Params.Le - 1)))
    (hpv : p.vResponse = vC + c * V')
    (hpar : p.aResponses =
      (undisclosedSpec dis L).map (fun v => (v, γ v + c * m v)))
    (hpad : p.aDisclosed = dis.map (fun v => (v, m v))) :
    p.reconstructZ pk = some zc := by
  have hn0 : (0 : ℤ) < (n : ℤ) := by
    exact_mod_cast Nat.lt_of_lt_of_le Nat.zero_lt_one hn.le
  set und : List ℕ := undisclosedSpec dis L with hunddef
  set Dd : ℤ := (2 : ℤ) ^ (pk.Params.Le - 1) with hDddef
  set Pd : (ZMod n)ˣ := (dis.map fun v => uR v ^ m v).prod with hPddef
  set Pu : (ZMod n)ˣ := (und.map fun v => uR v ^ m v).prod with hPudef
  set Pg : (ZMod n)ˣ := (und.map fun v => uR v ^ γ v).prod with hPgdef
  -- step 1: A'^(2^(Le-1)) mod N
  obtain ⟨t0, ht0, _, _, ht0c⟩ := modPow_eq_some_unit n hn A' Dd uA' hA'
  have ht0N : modPow A' Dd pk.N = some t0 := by rw [hNn]; exact ht0
  -- step 2: disclosed-side product
  obtain ⟨w, hw, hwc⟩ := factorProd_spec pk n hn hNn uR
    (dis.map (fun v => (v, m v))) (by
      intro pr hpr
      obtain ⟨v, hv, rfl⟩ := List.mem_map.mp hpr
      exact hRget v (hdlt v hv))
  have hwc' : ((w : ZMod n)) = ↑Pd := by
    rw [hwc, hPddef, List.map_map]
    rfl
  have hnum : numeratorLoop pk t0 (dis.map (fun v => (v, m v))) = some (t0 * w) := by
    rw [numeratorLoop_eq_factorProd, hw]
    rfl
  -- step 3: modular inverse of the disclosed-side numerator
  have hnumc : ((t0 * w : ℤ) : ZMod n) = ↑(uA' ^ Dd * Pd) := by
    push_cast
    rw [ht0c, hwc']
  have hKunit : IsUnit ((t0 * w : ℤ) : ZMod n) := by
    rw [hnumc]
    exact Units.isUnit _
  obtain ⟨inv, hinv⟩ := modInverse_isSome_of_isUnit n hn (t0 * w) hKunit
  have hinvN : modInverse (t0 * w) pk.N = some inv := by rw [hNn]; exact hinv
  obtain ⟨_, _, hinvmul⟩ := modInverse_eq_some n hn (t0 * w) inv hinv
  have hinvc : ((inv : ZMod n)) = ↑((uA' ^ Dd * Pd)⁻¹) :=
    cast_eq_inv_of_mul_eq_one (uA' ^ Dd * Pd) inv (by rw [← hnumc]; exact hinvmul)
  -- step 4: known^(-c)
  have hknownc : ((pk.Z * inv : ℤ) : ZMod n) = ↑(uZ * (uA' ^ Dd * Pd)⁻¹) := by
    push_cast
    rw [hZ, hinvc]
  obtain ⟨kc, hkc, _, _, hkcc⟩ := modPow_eq_some_unit n hn (pk.Z * inv) (-c)
    (uZ * (uA' ^ Dd * Pd)⁻¹) hknownc
  have hkcN : modPow (pk.Z * inv) (-c) pk.N = some kc := by rw [hNn]; exact hkc
  -- step 5: A^eResponse and S^vResponse
  obtain ⟨ae, hae, _, _, haec⟩ := modPow_eq_some_unit n hn A'
    (eC + c * (E' - Dd)) uA' hA'
  have haeN : modPow A' (eC + c * (E' - Dd)) pk.N = some ae := by
    rw [hNn]; exact hae
  obtain ⟨sv, hsv, _, _, hsvc⟩ := modPow_eq_some_unit n hn pk.S
    (vC + c * V') uS hS
  have hsvN : modPow pk.S (vC + c * V') pk.N = some sv := by rw [hNn]; exact hsv
  -- step 6: undisclosed-side product of the responses
  obtain ⟨w2, hw2, hw2c⟩ := factorProd_spec pk n hn hNn uR
    (und.map (fun v => (v, γ v + c * m v))) (by
      intro pr hpr
      obtain ⟨v, hv, rfl⟩ := List.mem_map.mp hpr
      exact hRget v ((mem_undisclosedSpec dis L v).mp (hunddef ▸ hv)).1)
  have hw2c' : ((w2 : ZMod n)) =
      ↑((und.map fun v => uR v ^ (γ v + c * m v)).prod) := by
    rw [hw2c, List.map_map]
    rfl
  have hrs : rsLoop pk 1 (und.map (fun v => (v, γ v + c * m v))) =
      some (1 * w2) := by
    rw [rsLoop_eq_factorProd, hw2]
    rfl
  -- step 7: assemble the verifier computation
  unfold ProofD.reconstructZ
  rw [hpA, hpc, hpe, hpv, hpar, hpad]
  rw [show ((2 : ℤ) ^ (pk.Params.Le - 1) : ℤ) = Dd from rfl]
  simp only [ht0N, Option.bind_eq_bind, Option.some_bind]
  simp only [hnum, Option.some_bind]
  simp only [hinvN, Option.some_bind]
  simp only [hkcN, Option.some_bind]
  simp only [haeN, Option.some_bind]
  simp only [hsvN, Option.some_bind]
  simp only [hrs, Option.some_bind, Option.pure_def]
  refine congrArg some ?_
  refine int_eq_of_intCast_eq n _ _ ?_
    (by rw [hNn]; exact Int.emod_nonneg _ (by omega))
    (by rw [hNn]; exact Int.emod_lt_of_pos _ hn0) hzc0 hzcn
  rw [hNn, intCast_emod_natCast]
  push_cast
  rw [hkcc, haec, hw2c', hsvc, hzc]
  have hsplit : ((und.map fun v => uR v ^ (γ v + c * m v)).prod) = Pg * Pu ^ c :=
    list_prod_zpow_split uR γ m c und
  rw [hsplit]
  have hzz : uA' ^ E' * uS ^ V' * (Pd * Pu) = uZ := by
    rw [← hCL', hPddef, hPudef, hunddef,
      range_prod_split L dis hdnd hdlt (fun i => uR i ^ m i)]
  have halg := honest_unit_algebra uA' uS Pg Pu Pd uZ Dd E' V' c eC vC hzz
  rw [← halg]
  push_cast
  rw [one_mul]

/-! ## Range facts for honest responses and the hash output -/

theorem foldl_hashAbsorb_lt :
    ∀ (xs : List ℤ) (a : ℕ), a < 2 ^ hashBits →
      xs.foldl hashAbsorb a < 2 ^ hashBits := by
  intro xs
  induction xs with
  | nil => intro a ha; exact ha
  | cons x rest ih =>
      intro a _
      exact ih (hashAbsorb a x) (Nat.mod_lt _ (by norm_num [hashBits]))

theorem hashCommit_nonneg (xs : List ℤ) : 0 ≤ hashCommit xs := by
  unfold hashCommit
  exact Int.natCast_nonneg _

theorem hashCommit_lt (xs : List ℤ) : hashCommit xs < 2 ^ hashBits := by
  have h := foldl_hashAbsorb_lt xs 5 (by norm_num [hashBits])
  unfold hashCommit
  exact_mod_cast h

theorem response_range_aux (k : ℕ) (c γv mv : ℤ) (hc0 : 0 ≤ c)
    (hcU : c < 2 ^ hashBits) (hγ0 : 0 ≤ γv) (hγU : γv < 2 ^ k)
    (hm : 2 ^ hashBits * mv.natAbs ≤ 2 ^ k) :
    -(2 ^ (k + 1) - 1) ≤ γv + c * mv ∧ γv + c * mv ≤ 2 ^ (k + 1) - 1 := by
  have hmc : ((2 : ℤ) ^ hashBits) * (mv.natAbs : ℤ) ≤ (2 : ℤ) ^ k := by
    exact_mod_cast hm
  have habs : (mv.natAbs : ℤ) = |mv| := (Int.abs_eq_natAbs mv).symm
  rw [habs] at hmc
  have h1 : |c * mv| ≤ (2 : ℤ) ^ k := by
    rw [abs_mul, abs_of_nonneg hc0]
    calc c * |mv| ≤ 2 ^ hashBits * |mv| :=
          mul_le_mul_of_nonneg_right (by omega) (abs_nonneg mv)
      _ ≤ 2 ^ k := hmc
  obtain ⟨h2a, h2b⟩ := abs_le.mp h1
  have hp : ((2 : ℤ)) ^ (k + 1) = 2 ^ k * 2 := pow_succ 2 k
  have hpos : (0 : ℤ) < 2 ^ k := pow_pos (by norm_num) k
  constructor <;> [nlinarith; nlinarith]

theorem honest_sizes (pk : PublicKey) (p : ProofD) (c eC E' : ℤ)
    (hc0 : 0 ≤ c) (hcU : c < 2 ^ hashBits)
    (hec : 0 ≤ eC) (hecU : eC < 2 ^ pk.Params.LeCommit)
    (hE : 2 ^ hashBits * (E' - 2 ^ (pk.Params.Le - 1)).natAbs ≤
      2 ^ pk.Params.LeCommit)
    (hpe : p.eResponse = eC + c * (E' - 2 ^ (pk.Params.Le - 1)))
    (har : ∀ pr ∈ p.aResponses, ∃ γv mv : ℤ, pr.2 = γv + c * mv ∧
      0 ≤ γv ∧ γv < 2 ^ pk.Params.LmCommit ∧
      2 ^ hashBits * mv.natAbs ≤ 2 ^ pk.Params.LmCommit) :
    p.correctResponseSizes pk = true := by
  unfold ProofD.correctResponseSizes
  simp only [Bool.and_eq_true, List.all_eq_true, decide_eq_true_iff]
  refine ⟨?_, ?_⟩
  · intro pr hpr
    obtain ⟨γv, mv, hval, hγ0, hγU, hm⟩ := har pr hpr
    obtain ⟨hlo, hhi⟩ := response_range_aux pk.Params.LmCommit c γv mv
      hc0 hcU hγ0 hγU hm
    rw [hval]
    exact ⟨hlo, hhi⟩
  · obtain ⟨hlo, hhi⟩ := response_range_aux pk.Params.LeCommit c eC
      (E' - 2 ^ (pk.Params.Le - 1)) hc0 hcU hec hecU hE
    rw [hpe]
    exact ⟨hlo, hhi⟩

/-- Honest-execution core shared by the single-shot
`CreateDisclosureProof` and the builder pipeline: for a valid credential the
commitment computation succeeds, and any `ProofD` carrying the honest
responses for a challenge below `2 ^ hashBits` reconstructs exactly the
committed `Z` and passes the range checks. -/
theorem honest_core (pk : PublicKey) (sig : CLSignature) (attrs : List ℤ)
    (hv : ValidTriple pk sig attrs)
    (dis : List ℕ) (hdnd : dis.Nodup) (hdlt : ∀ i ∈ dis, i < attrs.length)
    (rRand eCommit vCommit : ℤ) (hr : 0 ≤ rRand) (hec0 : 0 ≤ eCommit)
    (hecU : eCommit < 2 ^ pk.Params.LeCommit) (hvc0 : 0 ≤ vCommit)
    (γ : ℕ → ℤ) (hγ : ∀ v, 0 ≤ γ v ∧ γ v < 2 ^ pk.Params.LmCommit)
    (randomizers : List (ℕ × ℤ))
    (hlook : ∀ v ∈ undisclosedSpec dis attrs.length,
      mapLookup randomizers v = some (γ v)) :
    ∃ Ae Sv zc : ℤ,
      modPow (sig.randomize pk rRand).A eCommit pk.N = some Ae ∧
      modPow pk.S vCommit pk.N = some Sv ∧
      commitZLoop pk randomizers (Ae * Sv % pk.N)
        (undisclosedSpec dis attrs.length) = some zc ∧
      ∀ c : ℤ, 0 ≤ c → c < 2 ^ hashBits →
        ∀ p : ProofD, p.c = c → p.A = (sig.randomize pk rRand).A →
          p.eResponse = eCommit +
            c * ((sig.randomize pk rRand).E - 2 ^ (pk.Params.Le - 1)) →
          p.vResponse = vCommit + c * (sig.randomize pk rRand).V →
          p.aResponses = (undisclosedSpec dis attrs.length).map
            (fun v => (v, γ v + c * attrs.getD v 0)) →
          p.aDisclosed = dis.map (fun v => (v, attrs.getD v 0)) →
          p.reconstructZ pk = some zc ∧ p.correctResponseSizes pk = true := by
  obtain ⟨n, uA, uS, uZ, uR, hn, hNn, hAc, hSc, hZc, hRget, hCLu⟩ :=
    validTriple_units pk sig attrs hv
  have hn0 : (0 : ℤ) < (n : ℤ) := by
    exact_mod_cast Nat.lt_of_lt_of_le Nat.zero_lt_one hn.le
  set L : ℕ := attrs.length with hLdef
  set und : List ℕ := undisclosedSpec dis L with hunddef
  set rs : CLSignature := sig.randomize pk rRand with hrsdef
  set uA' : (ZMod n)ˣ := uA * uS ^ rRand with huA'def
  have hA'c : ((rs.A : ZMod n)) = ↑uA' := by
    show (((sig.A * (pk.S ^ rRand.toNat % pk.N) % pk.N : ℤ)) : ZMod n) = _
    rw [hNn, intCast_emod_natCast, Int.cast_mul, intCast_emod_natCast,
      Int.cast_pow]
    rw [show ((sig.A : ZMod n)) = ↑uA from hAc,
      show ((pk.S : ZMod n)) = ↑uS from hSc]
    rw [← Units.val_pow_eq_pow_val, ← Units.val_mul, huA'def]
    congr 2
    rw [← zpow_natCast, Int.toNat_of_nonneg hr]
  set P : (ZMod n)ˣ :=
    ((List.range L).map (fun i => uR i ^ (attrs.getD i 0))).prod with hPdef
  have hCL' : uA' ^ sig.E * uS ^ (sig.V - sig.E * rRand) * P = uZ := by
    rw [← hCLu, huA'def]
    calc (uA * uS ^ rRand) ^ sig.E * uS ^ (sig.V - sig.E * rRand) * P
        = (uA ^ sig.E * (uS ^ rRand) ^ sig.E) * uS ^ (sig.V - sig.E * rRand) * P := by
          rw [mul_zpow]
      _ = (uA ^ sig.E * uS ^ (rRand * sig.E)) * uS ^ (sig.V - sig.E * rRand) * P := by
          rw [← zpow_mul]
      _ = uA ^ sig.E * (uS ^ (rRand * sig.E) * uS ^ (sig.V - sig.E * rRand)) * P := by
          rw [mul_assoc (uA ^ sig.E) (uS ^ (rRand * sig.E))
            (uS ^ (sig.V - sig.E * rRand))]
      _ = uA ^ sig.E * uS ^ (rRand * sig.E + (sig.V - sig.E * rRand)) * P := by
          rw [← zpow_add]
      _ = uA ^ sig.E * uS ^ sig.V * P := by
          rw [show rRand * sig.E + (sig.V - sig.E * rRand) = sig.V from by ring]
  obtain ⟨ae, hae, _, haeR, haec⟩ := modPow_eq_some_unit n hn rs.A eCommit uA' hA'c
  have haeN : modPow rs.A eCommit pk.N = some ae := by rw [hNn]; exact hae
  obtain ⟨sv, hsv, _, hsvR, hsvc⟩ := modPow_eq_some_unit n hn pk.S vCommit uS hSc
  have hsvN : modPow pk.S vCommit pk.N = some sv := by rw [hNn]; exact hsv
  have hz0c : ((ae * sv % pk.N : ℤ) : ZMod n) =
      ↑(uA' ^ eCommit * uS ^ vCommit) := by
    rw [hNn, intCast_emod_natCast, Int.cast_mul, haec, hsvc, Units.val_mul]
  obtain ⟨zc, hzcEq, hzc0, hzcn, hzcc⟩ := commitZLoop_spec pk n hn hNn
    randomizers γ uR und (ae * sv % pk.N)
    (by rw [hNn]; exact Int.emod_nonneg _ (by omega))
    (by rw [hNn]; exact Int.emod_lt_of_pos _ hn0)
    hlook
    (fun v hvv => hRget v ((mem_undisclosedSpec dis L v).mp (hunddef ▸ hvv)).1)
  have hzcc' : ((zc : ZMod n)) =
      ↑(uA' ^ eCommit * uS ^ vCommit * ((und.map fun v => uR v ^ γ v).prod)) := by
    rw [hzcc, hz0c]
    simp [Units.val_mul, mul_assoc]
  refine ⟨ae, sv, zc, haeN, hsvN, hzcEq, ?_⟩
  intro c hc0 hcU p hpc hpA hpe hpv hpar hpad
  constructor
  · exact reconstructZ_honest pk n hn hNn uA' uS uZ uR L hRget hSc hZc rs.A hA'c
      sig.E (sig.V - sig.E * rRand) (fun i => attrs.getD i 0) hCL'
      dis hdnd hdlt γ c eCommit vCommit zc hzc0 hzcn hzcc' p hpc hpA hpe hpv
      hpar hpad
  · refine honest_sizes pk p c eCommit sig.E hc0 hcU hec0 hecU hv.hESize hpe ?_
    intro pr hpr
    rw [hpar] at hpr
    obtain ⟨v, hvv, rfl⟩ := List.mem_map.mp hpr
    refine ⟨γ v, attrs.getD v 0, rfl, (hγ v).1, (hγ v).2, ?_⟩
    refine hv.hAttrsSize _ ?_
    have hvL : v < L := ((mem_undisclosedSpec dis L v).mp (hunddef ▸ hvv)).1
    rw [List.getD_eq_getElem attrs 0 hvL]
    exact List.getElem_mem hvL

/-! ## Claim C1: honest prover's disclosure proof verifies -/

/-- C1: for every valid triple `(pk, sig, attrs)` satisfying the CL
verification equation, every disclosed index subset not containing 0, and
every context and nonce, the `ProofD` produced by
`CreateDisclosureProof` (with honestly sampled randomness) is accepted by
`ProofD.Verify(pk, context, nonce)`. -/
theorem honest_disclosure_proof_verifies (ic : IdemixCredential)
    (disclosed : List ℕ) (context nonce1 : ℤ) (rRand eCommit vCommit : ℤ)
    (tape : ℕ → ℤ)
    (hv : ValidTriple ic.Pk ic.Signature ic.Attributes)
    (hd0 : 0 ∉ disclosed) (hdnd : disclosed.Nodup)
    (hdlt : ∀ i ∈ disclosed, i < ic.Attributes.length)
    (hr : 0 ≤ rRand) (hec0 : 0 ≤ eCommit)
    (hecU : eCommit < 2 ^ ic.Pk.Params.LeCommit) (hvc0 : 0 ≤ vCommit)
    (htape : ∀ v, 0 ≤ tape v ∧ tape v < 2 ^ ic.Pk.Params.LmCommit) :
    ∃ p : ProofD,
      createDisclosureProof ic disclosed context nonce1 rRand eCommit vCommit
        tape = some p ∧
      p.verify ic.Pk context nonce1 = some true := by
  have hund := getUndisclosedAttributes_eq disclosed ic.Attributes.length hdlt
  have hlook : ∀ v ∈ undisclosedSpec disclosed ic.Attributes.length,
      mapLookup (buildRandomizers tape
        (undisclosedSpec disclosed ic.Attributes.length) []) v =
        some (tape v) := by
    intro v hvv
    rw [mapLookup_buildRandomizers]
    simp [hvv]
  obtain ⟨Ae, Sv, zc, haeN, hsvN, hzcEq, hcore⟩ := honest_core ic.Pk
    ic.Signature ic.Attributes hv disclosed hdnd hdlt rRand eCommit vCommit
    hr hec0 hecU hvc0 tape htape
    (buildRandomizers tape (undisclosedSpec disclosed ic.Attributes.length) [])
    hlook
  have hundnd := undisclosedSpec_nodup disclosed ic.Attributes.length
  have hundlt : ∀ v ∈ undisclosedSpec disclosed ic.Attributes.length,
      v < ic.Attributes.length :=
    fun v hvv => ((mem_undisclosedSpec disclosed ic.Attributes.length v).mp hvv).1
  have haresp := buildAResponses_eq
    (hashCommit [context, (ic.Signature.randomize ic.Pk rRand).A, zc, nonce1])
    ic.Attributes
    (buildRandomizers tape (undisclosedSpec disclosed ic.Attributes.length) [])
    tape (undisclosedSpec disclosed ic.Attributes.length) [] hundnd hundlt hlook
    (by intro v _; simp [mapKeys])
  have hadis := buildADisclosed_eq ic.Attributes disclosed [] hdnd hdlt
    (by intro v _; simp [mapKeys])
  have hcreate : createDisclosureProof ic disclosed context nonce1 rRand
      eCommit vCommit tape = some (⟨hashCommit [context, (ic.Signature.randomize ic.Pk rRand).A, zc, nonce1],
      (ic.Signature.randomize ic.Pk rRand).A,
      eCommit +
        hashCommit [context, (ic.Signature.randomize ic.Pk rRand).A, zc, nonce1] *
        ((ic.Signature.randomize ic.Pk rRand).E - 2 ^ (ic.Pk.Params.Le - 1)),
      vCommit +
        hashCommit [context, (ic.Signature.randomize ic.Pk rRand).A, zc, nonce1] *
        (ic.Signature.randomize ic.Pk rRand).V,
      (undisclosedSpec disclosed ic.Attributes.length).map
        (fun v => (v, tape v +
          hashCommit [context, (ic.Signature.randomize ic.Pk rRand).A, zc, nonce1] *
          ic.Attributes.getD v 0)),
      disclosed.map (fun v => (v, ic.Attributes.getD v 0))⟩ : ProofD) := by
    unfold createDisclosureProof
    rw [hund]
    simp only [Option.bind_eq_bind, Option.some_bind]
    rw [haeN]
    simp only [Option.some_bind]
    rw [hsvN]
    simp only [Option.some_bind]
    rw [hzcEq]
    simp only [Option.some_bind]
    rw [haresp]
    simp only [Option.some_bind]
    rw [hadis]
    simp only [Option.some_bind, Option.pure_def, List.nil_append]
  refine ⟨_, hcreate, ?_⟩
  obtain ⟨hrz, hsz⟩ := hcore
    (hashCommit [context, (ic.Signature.randomize ic.Pk rRand).A, zc, nonce1])
    (hashCommit_nonneg _) (hashCommit_lt _)
    (⟨hashCommit [context, (ic.Signature.randomize ic.Pk rRand).A, zc, nonce1],
      (ic.Signature.randomize ic.Pk rRand).A,
      eCommit +
        hashCommit [context, (ic.Signature.randomize ic.Pk rRand).A, zc, nonce1] *
        ((ic.Signature.randomize ic.Pk rRand).E - 2 ^ (ic.Pk.Params.Le - 1)),
      vCommit +
        hashCommit [context, (ic.Signature.randomize ic.Pk rRand).A, zc, nonce1] *
        (ic.Signature.randomize ic.Pk rRand).V,
      (undisclosedSpec disclosed ic.Attributes.length).map
        (fun v => (v, tape v +
          hashCommit [context, (ic.Signature.randomize ic.Pk rRand).A, zc, nonce1] *
          ic.Attributes.getD v 0)),
      disclosed.map (fun v => (v, ic.Attributes.getD v 0))⟩ : ProofD) rfl rfl rfl rfl rfl rfl
  unfold ProofD.verify ProofD.challengeContribution
  rw [hrz, Option.map_some']
  unfold ProofD.verifyWithChallenge
  rw [hsz]
  simp [createChallenge]

/-! ## Concrete fixtures for witnesses and counterexamples -/

/-- Small system parameters making every computation kernel-evaluable. -/
def Pfix : SystemParameters :=
  { Le := 5, LeCommit := 9, Lv := 10, LvCommit := 10, LvPrimeCommit := 10
    Lm := 2, LmCommit := 10 }

/-- A concrete public key over the prime modulus 11; `Z` is chosen so that
the fixture signature satisfies the CL equation. -/
def PKfix : PublicKey :=
  { N := 11, S := 2, Z := (3 ^ 17 * 2 ^ 20 * 6 ^ 1 * 7 ^ 2) % 11, R := [6, 7]
    Params := Pfix }

/-- A concrete CL signature valid for `PKfix` on the attributes `[1, 2]`. -/
def SIGfix : CLSignature := { A := 3, E := 17, V := 20 }

/-- A concrete credential over `PKfix`. -/
def CREDfix : IdemixCredential :=
  { Signature := SIGfix, Pk := PKfix, Attributes := [1, 2] }

/-- A constant randomizer tape within the `LmCommit` sampling range. -/
def tapeFix : ℕ → ℤ := fun _ => 2

/-- The honest disclosure proof of the fixture credential disclosing
attribute 1. -/
def proofFix : ProofD :=
  (createDisclosureProof CREDfix [1] 100 200 1 5 7 tapeFix).getD ⟨0, 0, 0, 0, [], []⟩

/-- The disclosure proof the code produces when index 0 (the secret key)
is disclosed. -/
def proofZeroDisclosed : ProofD :=
  (createDisclosureProof CREDfix [0] 100 200 1 5 7 tapeFix).getD ⟨0, 0, 0, 0, [], []⟩

/-- Witness for C1 at the concrete fixture. -/
theorem honest_disclosure_proof_verifies_witness :
    createDisclosureProof CREDfix [1] 100 200 1 5 7 tapeFix = some proofFix ∧
    proofFix.verify CREDfix.Pk 100 200 = some true := by
  obtain ⟨p, hp, hpv⟩ := honest_disclosure_proof_verifies CREDfix [1] 100 200
    1 5 7 tapeFix
    ⟨by decide, by decide, by decide, by decide, by decide, by decide,
      by decide, by decide, by decide, by decide, by decide, by decide⟩
    (by decide) (by decide) (by decide) (by decide) (by decide) (by decide)
    (by decide)
    (fun v => ⟨by norm_num [tapeFix], by norm_num [tapeFix, CREDfix, PKfix, Pfix]⟩)
  have hpf : proofFix = p := by
    unfold proofFix
    rw [hp]
    rfl
  exact ⟨hpf ▸ hp, hpf ▸ hpv⟩

/-! ## Claim C4: there is no InvalidDisclosure check in the code -/

/-- C4 (code behaviour at the claimed failing inputs): disclosing index 0
does not fail — `CreateDisclosureProofBuilder` returns a builder and
`CreateDisclosureProof` returns a proof that reveals the secret-key
attribute in `aDisclosed` — and an out-of-range index panics
(index-out-of-range in `getUndisclosedAttributes`) instead of returning an
`InvalidDisclosure` error. -/
theorem no_invalidDisclosure_error_check :
    (createDisclosureProofBuilder CREDfix [0] 1 5 7 tapeFix).isSome = true ∧
    createDisclosureProof CREDfix [0] 100 200 1 5 7 tapeFix =
      some proofZeroDisclosed ∧
    mapLookup proofZeroDisclosed.aDisclosed 0 = some 1 ∧
    getUndisclosedAttributes [5] CREDfix.Attributes.length = none ∧
    createDisclosureProof CREDfix [5] 100 200 1 5 7 tapeFix = none ∧
    createDisclosureProofBuilder CREDfix [5] 1 5 7 tapeFix = none := by
  refine ⟨by decide, by decide, by decide, by decide, by decide, by decide⟩

/-! ## Claim C8: a failing CSPRNG does not abort proof construction -/

/-- Modelled from the spec §6: sampling from a CSPRNG that may fail.  The
source discards the error return of every `randomBigInt` call
(`eCommit, _ := randomBigInt(...)` in `CreateDisclosureProof`,
`CreateDisclosureProofBuilder` and `BuildProofList`), so a failure cannot
abort the operation; a failed sample leaves the zero value that the nil
big integer denotes in the subsequent arithmetic. -/
def sampleOrZero (oracle : ℕ → Option ℤ) (i : ℕ) : ℤ := (oracle i).getD 0

/-- `CreateDisclosureProof` driven by a fallible CSPRNG oracle: sample 0
feeds the signature randomization, 1 `eCommit`, 2 `vCommit`, and `3 + v`
the randomizer of undisclosed attribute `v`. -/
def createDisclosureProofOracle (ic : IdemixCredential)
    (disclosedAttributes : List ℕ) (context nonce1 : ℤ)
    (oracle : ℕ → Option ℤ) : Option ProofD :=
  createDisclosureProof ic disclosedAttributes context nonce1
    (sampleOrZero oracle 0) (sampleOrZero oracle 1) (sampleOrZero oracle 2)
    (fun v => sampleOrZero oracle (3 + v))

/-- `CreateDisclosureProofBuilder` driven by a fallible CSPRNG oracle. -/
def createDisclosureProofBuilderOracle (ic : IdemixCredential)
    (disclosedAttributes : List ℕ) (oracle : ℕ → Option ℤ) :
    Option DisclosureProofBuilder :=
  createDisclosureProofBuilder ic disclosedAttributes
    (sampleOrZero oracle 0) (sampleOrZero oracle 1) (sampleOrZero oracle 2)
    (fun v => sampleOrZero oracle (3 + v))

/-- C8 (code behaviour): with a CSPRNG that fails on every call, the
construction pipeline still returns an ordinary `ProofD` (built from the
degenerate zero samples) and `BuildProofList` still returns a `ProofList`;
nothing aborts with an `RngFailure` error. -/
theorem rng_failure_still_returns_proof :
    (createDisclosureProofOracle CREDfix [1] 100 200 (fun _ => none)).isSome
      = true ∧
    ((createDisclosureProofBuilderOracle CREDfix [1] (fun _ => none)).bind
      (fun b => buildProofList 100 200 [b]
        (sampleOrZero (fun _ => none) 0))).isSome = true := by
  refine ⟨by decide, by decide⟩

/-! ## Claim C10: bound verification panics on a proof without key 0 -/

/-- C10: a `ProofD` built with index 0 in the disclosed set has no key 0
in `aResponses`, so `SecretKeyResponse()` returns no value, and bound
`ProofList.Verify` reaches the error branch of the embedding (the `nil`
dereference in the secret-key comparison): it returns `none` instead of a
boolean. -/
theorem bound_verify_panics_without_secret_key_response :
    createDisclosureProof CREDfix [0] 100 200 1 5 7 tapeFix =
      some proofZeroDisclosed ∧
    proofZeroDisclosed.secretKeyResponse = none ∧
    ProofList.verify [Proof.d proofZeroDisclosed] [PKfix] 100 200 true =
      none := by
  refine ⟨by decide, by decide, by decide⟩

/-! ## Witness for C9 -/

/-- Witness for C9: two concrete `ProofD`s whose maps are permutations of
one another reconstruct the same `Z`. -/
theorem reconstructZ_enumeration_order_independent_witness :
    List.Perm [(1, (3 : ℤ)), (0, 5)] [(0, (5 : ℤ)), (1, 3)] ∧
    ProofD.reconstructZ ⟨7, 3, 4, 6, [(1, 3), (0, 5)], [(1, 2)]⟩ PKfix =
      ProofD.reconstructZ ⟨7, 3, 4, 6, [(0, 5), (1, 3)], [(1, 2)]⟩ PKfix ∧
    ProofD.verify ⟨7, 3, 4, 6, [(1, 3), (0, 5)], [(1, 2)]⟩ PKfix 100 200 =
      ProofD.verify ⟨7, 3, 4, 6, [(0, 5), (1, 3)], [(1, 2)]⟩ PKfix 100 200 := by
  refine ⟨by decide, ?_, ?_⟩
  · exact (reconstructZ_enumeration_order_independent
      ⟨7, 3, 4, 6, [(1, 3), (0, 5)], [(1, 2)]⟩
      ⟨7, 3, 4, 6, [(0, 5), (1, 3)], [(1, 2)]⟩ PKfix rfl rfl rfl rfl
      (by decide) (by decide)).1
  · exact (reconstructZ_enumeration_order_independent
      ⟨7, 3, 4, 6, [(1, 3), (0, 5)], [(1, 2)]⟩
      ⟨7, 3, 4, 6, [(0, 5), (1, 3)], [(1, 2)]⟩ PKfix rfl rfl rfl rfl
      (by decide) (by decide)).2.2 100 200

/-! ## Claim C7: unbound list verification is elementwise verification -/

theorem proof_verify_eq (p : Proof) (pk : PublicKey) (context nonce : ℤ) :
    p.verify pk context nonce = (p.challengeContribution pk).map
      (fun contrib =>
        p.verifyWithChallenge pk (createChallenge context nonce contrib)) := by
  cases p <;> rfl

theorem verifyUnboundLoop_iff (context nonce : ℤ) :
    ∀ (ps : List Proof) (ks : List PublicKey), ps.length = ks.length →
      (verifyUnboundLoop context nonce ps ks = some true ↔
        ∀ pair ∈ ps.zip ks, pair.1.verify pair.2 context nonce = some true) := by
  intro ps
  induction ps with
  | nil =>
      intro ks _
      simp [verifyUnboundLoop]
  | cons p rest ih =>
      intro ks hlen
      cases ks with
      | nil => simp at hlen
      | cons k krest =>
          have hlen' : rest.length = krest.length := by simpa using hlen
          rw [show verifyUnboundLoop context nonce (p :: rest) (k :: krest) =
            (p.challengeContribution k).bind (fun contrib =>
              if ¬ p.verifyWithChallenge k (createChallenge context nonce contrib)
              then some false
              else verifyUnboundLoop context nonce rest krest) from rfl]
          cases hcc : p.challengeContribution k with
          | none =>
              simp only [Option.none_bind]
              constructor
              · intro h
                exact absurd h (by simp)
              · intro h
                have hx := h (p, k) (by rw [List.zip_cons_cons]; simp)
                rw [proof_verify_eq, hcc] at hx
                simp at hx
          | some contrib =>
              simp only [Option.some_bind]
              by_cases hvw :
                  p.verifyWithChallenge k (createChallenge context nonce contrib)
              · rw [if_neg (by simp [hvw])]
                rw [ih krest hlen', List.zip_cons_cons, List.forall_mem_cons]
                have hpk : p.verify k context nonce = some true := by
                  rw [proof_verify_eq, hcc]
                  simp [hvw]
                simp [hpk]
              · rw [if_pos (by simp [hvw])]
                constructor
                · intro h
                  exact absurd h (by simp)
                · intro h
                  have hx := h (p, k) (by rw [List.zip_cons_cons]; simp)
                  rw [proof_verify_eq, hcc] at hx
                  simp [hvw] at hx

/-- C7: for a non-empty `ProofList` and a matching-length list of public
keys, `Verify(..., shouldBeBound = false)` accepts exactly when every proof
verifies individually against its own public key, context and nonce (each
against a challenge rebuilt from its own contribution). -/
theorem unbound_verify_iff_each_verifies (pl : List Proof)
    (publicKeys : List PublicKey) (context nonce : ℤ)
    (hne : pl ≠ []) (hlen : pl.length = publicKeys.length) :
    ProofList.verify pl publicKeys context nonce false = some true ↔
      ∀ pair ∈ pl.zip publicKeys,
        pair.1.verify pair.2 context nonce = some true := by
  unfold ProofList.verify
  rw [if_neg (fun h => hne (List.length_eq_zero.mp h)), if_neg (by omega),
    if_neg (by simp)]
  exact verifyUnboundLoop_iff context nonce pl publicKeys hlen

set_option maxRecDepth 4000 in
/-- Witness for C7 at a concrete one-element list. -/
theorem unbound_verify_iff_each_verifies_witness :
    ProofList.verify [Proof.d proofFix] [PKfix] 100 200 false = some true :=
  (unbound_verify_iff_each_verifies [Proof.d proofFix] [PKfix] 100 200
    (by decide) (by decide)).mpr (by decide)

/-! ## Claim C5: key partition of the produced proofs -/

theorem mapKeys_map_self (f : ℕ → ℤ) (l : List ℕ) :
    mapKeys (l.map (fun v => (v, f v))) = l := by
  induction l with
  | nil => rfl
  | cons w rest ih =>
      unfold mapKeys at ih ⊢
      rw [List.map_cons, List.map_cons]
      exact congrArg (fun t => w :: t) ih

theorem mapLookup_map_self (f : ℕ → ℤ) :
    ∀ (l : List ℕ) (i : ℕ), i ∈ l →
      mapLookup (l.map (fun v => (v, f v))) i = some (f i) := by
  intro l
  induction l with
  | nil => intro i hi; exact absurd hi (List.not_mem_nil i)
  | cons w rest ih =>
      intro i hi
      rw [List.map_cons]
      by_cases hw : w = i
      · subst hw
        simp [mapLookup]
      · rw [show mapLookup ((w, f w) :: rest.map (fun v => (v, f v))) i =
          if w = i then some (f w) else mapLookup (rest.map (fun v => (v, f v))) i
          from rfl, if_neg hw]
        exact ih i (by
          rcases List.mem_cons.mp hi with h | h
          · exact absurd h.symm hw
          · exact h)

/-- Shape of the maps of a proof produced by the single-shot
`CreateDisclosureProof`. -/
theorem createDisclosureProof_shape (ic : IdemixCredential) (dis : List ℕ)
    (context nonce1 rRand eCommit vCommit : ℤ) (tape : ℕ → ℤ) (p : ProofD)
    (hdnd : dis.Nodup) (hdlt : ∀ i ∈ dis, i < ic.Attributes.length)
    (h : createDisclosureProof ic dis context nonce1 rRand eCommit vCommit
      tape = some p) :
    p.aResponses = (undisclosedSpec dis ic.Attributes.length).map
      (fun v => (v, tape v + p.c * ic.Attributes.getD v 0)) ∧
    p.aDisclosed = dis.map (fun v => (v, ic.Attributes.getD v 0)) := by
  have hundnd := undisclosedSpec_nodup dis ic.Attributes.length
  have hundlt : ∀ v ∈ undisclosedSpec dis ic.Attributes.length,
      v < ic.Attributes.length :=
    fun v hvv => ((mem_undisclosedSpec dis ic.Attributes.length v).mp hvv).1
  have hlook : ∀ v ∈ undisclosedSpec dis ic.Attributes.length,
      mapLookup (buildRandomizers tape
        (undisclosedSpec dis ic.Attributes.length) []) v = some (tape v) := by
    intro v hvv
    rw [mapLookup_buildRandomizers]
    simp [hvv]
  unfold createDisclosureProof at h
  rw [getUndisclosedAttributes_eq dis _ hdlt] at h
  simp only [Option.bind_eq_bind, Option.some_bind] at h
  rw [Option.bind_eq_some] at h
  obtain ⟨Ae, hAe, h⟩ := h
  rw [Option.bind_eq_some] at h
  obtain ⟨Sv, hSv, h⟩ := h
  rw [Option.bind_eq_some] at h
  obtain ⟨zc, hzc, h⟩ := h
  rw [Option.bind_eq_some] at h
  obtain ⟨ar, har, h⟩ := h
  rw [Option.bind_eq_some] at h
  obtain ⟨ad, had, h⟩ := h
  rw [buildAResponses_eq _ _ _ tape _ _ hundnd hundlt hlook
    (by intro v _; simp [mapKeys])] at har
  rw [buildADisclosed_eq _ _ _ hdnd hdlt (by intro v _; simp [mapKeys])] at had
  obtain rfl : ar = (undisclosedSpec dis ic.Attributes.length).map
      (fun v => (v, tape v +
        hashCommit [context, (ic.Signature.randomize ic.Pk rRand).A, zc, nonce1] *
        ic.Attributes.getD v 0)) := by
    have := Option.some.inj har
    simpa using this.symm
  obtain rfl : ad = dis.map (fun v => (v, ic.Attributes.getD v 0)) := by
    have := Option.some.inj had
    simpa using this.symm
  obtain rfl : (⟨hashCommit [context, (ic.Signature.randomize ic.Pk rRand).A,
      zc, nonce1], (ic.Signature.randomize ic.Pk rRand).A, _, _, _, _⟩ : ProofD)
      = p := Option.some.inj h
  exact ⟨rfl, rfl⟩

/-- Shape of the maps of a proof produced through the builder pipeline
(`CreateDisclosureProofBuilder`, `Commit`, `CreateProof`). -/
theorem builder_pipeline_shape (ic : IdemixCredential) (dis : List ℕ)
    (rRand eCommit vCommit : ℤ) (tape : ℕ → ℤ) (sk c : ℤ)
    (hdnd : dis.Nodup) (hdlt : ∀ i ∈ dis, i < ic.Attributes.length)
    (b0 b1 : DisclosureProofBuilder) (contrib : List ℤ) (pr : Proof)
    (hb0 : createDisclosureProofBuilder ic dis rRand eCommit vCommit tape =
      some b0)
    (hcm : b0.commit sk = some (b1, contrib))
    (hp : b1.createProof c = some pr) :
    ∃ q : ProofD, pr = Proof.d q ∧ q.c = c ∧
      q.aResponses = (undisclosedSpec dis ic.Attributes.length).map
        (fun v => (v, (if v = 0 then sk else tape v) +
          c * ic.Attributes.getD v 0)) ∧
      q.aDisclosed = dis.map (fun v => (v, ic.Attributes.getD v 0)) := by
  have hundnd := undisclosedSpec_nodup dis ic.Attributes.length
  have hundlt : ∀ v ∈ undisclosedSpec dis ic.Attributes.length,
      v < ic.Attributes.length :=
    fun v hvv => ((mem_undisclosedSpec dis ic.Attributes.length v).mp hvv).1
  unfold createDisclosureProofBuilder at hb0
  rw [getUndisclosedAttributes_eq dis _ hdlt] at hb0
  simp only [Option.bind_eq_bind, Option.some_bind] at hb0
  obtain rfl :
      ({ randomizedSignature := ic.Signature.randomize ic.Pk rRand
         eCommit := eCommit, vCommit := vCommit
         attrRandomizers := buildRandomizers tape
           (undisclosedSpec dis ic.Attributes.length) []
         z := 0
         disclosedAttributes := dis
         undisclosedAttributes := undisclosedSpec dis ic.Attributes.length
         pk := ic.Pk
         attributes := ic.Attributes } : DisclosureProofBuilder) = b0 :=
    Option.some.inj hb0
  unfold DisclosureProofBuilder.commit at hcm
  simp only [Option.bind_eq_bind, Option.some_bind] at hcm
  rw [Option.bind_eq_some] at hcm
  obtain ⟨Ae, hAe, hcm⟩ := hcm
  rw [Option.bind_eq_some] at hcm
  obtain ⟨Sv, hSv, hcm⟩ := hcm
  rw [Option.bind_eq_some] at hcm
  obtain ⟨z, hz, hcm⟩ := hcm
  obtain ⟨hb1, _⟩ : _ ∧ _ := Prod.mk.injEq .. ▸ (Option.some.inj hcm)
  have hlook : ∀ v ∈ undisclosedSpec dis ic.Attributes.length,
      mapLookup (mapInsert (buildRandomizers tape
        (undisclosedSpec dis ic.Attributes.length) []) 0 sk) v =
        some (if v = 0 then sk else tape v) := by
    intro v hvv
    rw [mapLookup_insert]
    by_cases hv0 : v = 0
    · simp [hv0]
    · rw [if_neg hv0, if_neg hv0, mapLookup_buildRandomizers]
      simp [hvv]
  rw [← hb1] at hp
  unfold DisclosureProofBuilder.createProof at hp
  simp only [Option.bind_eq_bind, Option.some_bind] at hp
  rw [Option.bind_eq_some] at hp
  obtain ⟨ar, har, hp⟩ := hp
  rw [Option.bind_eq_some] at hp
  obtain ⟨ad, had, hp⟩ := hp
  rw [buildAResponses_eq _ _ _ (fun v => if v = 0 then sk else tape v) _ _
    hundnd hundlt hlook (by intro v _; simp [mapKeys])] at har
  rw [buildADisclosed_eq _ _ _ hdnd hdlt (by intro v _; simp [mapKeys])] at had
  obtain rfl : ar = (undisclosedSpec dis ic.Attributes.length).map
      (fun v => (v, (if v = 0 then sk else tape v) +
        c * ic.Attributes.getD v 0)) := by
    have := Option.some.inj har
    simpa using this.symm
  obtain rfl : ad = dis.map (fun v => (v, ic.Attributes.getD v 0)) := by
    have := Option.some.inj had
    simpa using this.symm
  exact ⟨_, (Option.some.inj hp).symm, rfl, rfl, rfl⟩

/-- The partition facts of claim C5 for one `ProofD`: the `aResponses` and
`aDisclosed` keys are disjoint, together cover exactly the attribute
indices, key 0 lies on the `aResponses` side, and `aDisclosed` carries the
attribute values of each disclosed index. -/
def PartitionOK (p : ProofD) (attrs : List ℤ) (dis : List ℕ) : Prop :=
  (∀ i, (i ∈ mapKeys p.aResponses ∨ i ∈ mapKeys p.aDisclosed) ↔
    i < attrs.length) ∧
  (∀ i, ¬(i ∈ mapKeys p.aResponses ∧ i ∈ mapKeys p.aDisclosed)) ∧
  0 ∈ mapKeys p.aResponses ∧
  (∀ i ∈ dis, mapLookup p.aDisclosed i = listGet attrs i)

theorem partition_of_maps (attrs : List ℤ) (dis : List ℕ)
    (hdlt : ∀ i ∈ dis, i < attrs.length) (h0 : 0 ∉ dis)
    (hL : 0 < attrs.length) (p : ProofD) (f : ℕ → ℤ)
    (har : p.aResponses = (undisclosedSpec dis attrs.length).map
      (fun v => (v, f v)))
    (had : p.aDisclosed = dis.map (fun v => (v, attrs.getD v 0))) :
    PartitionOK p attrs dis := by
  have hkar : mapKeys p.aResponses = undisclosedSpec dis attrs.length := by
    rw [har, mapKeys_map_self]
  have hkad : mapKeys p.aDisclosed = dis := by
    rw [had, mapKeys_map_self]
  refine ⟨?_, ?_, ?_, ?_⟩
  · intro i
    rw [hkar, hkad, mem_undisclosedSpec]
    constructor
    · rintro (⟨hi, _⟩ | hi)
      · exact hi
      · exact hdlt i hi
    · intro hi
      by_cases hid : i ∈ dis
      · exact Or.inr hid
      · exact Or.inl ⟨hi, hid⟩
  · intro i
    rw [hkar, hkad, mem_undisclosedSpec]
    rintro ⟨⟨_, hnd⟩, hd⟩
    exact hnd hd
  · rw [hkar, mem_undisclosedSpec]
    exact ⟨hL, h0⟩
  · intro i hi
    rw [had, mapLookup_map_self _ dis i hi,
      listGet_eq_getD attrs i (hdlt i hi)]

/-- C5 (amended): every `ProofD` produced by `CreateDisclosureProof` or by
a builder's `CreateProof` from a disclosed index set that excludes 0 and
stays within the attribute range satisfies the key-partition invariant and
carries the credential's attribute values in `aDisclosed`. -/
theorem proofD_partition_invariant :
    (∀ (ic : IdemixCredential) (dis : List ℕ)
        (context nonce1 rRand eCommit vCommit : ℤ) (tape : ℕ → ℤ)
        (p : ProofD),
      dis.Nodup → (∀ i ∈ dis, i < ic.Attributes.length) → 0 ∉ dis →
      0 < ic.Attributes.length →
      createDisclosureProof ic dis context nonce1 rRand eCommit vCommit tape =
        some p →
      PartitionOK p ic.Attributes dis) ∧
    (∀ (ic : IdemixCredential) (dis : List ℕ) (rRand eCommit vCommit : ℤ)
        (tape : ℕ → ℤ) (sk c : ℤ) (b0 b1 : DisclosureProofBuilder)
        (contrib : List ℤ) (q : ProofD),
      dis.Nodup → (∀ i ∈ dis, i < ic.Attributes.length) → 0 ∉ dis →
      0 < ic.Attributes.length →
      createDisclosureProofBuilder ic dis rRand eCommit vCommit tape =
        some b0 →
      b0.commit sk = some (b1, contrib) →
      b1.createProof c = some (Proof.d q) →
      PartitionOK q ic.Attributes dis) := by
  constructor
  · intro ic dis context nonce1 rRand eCommit vCommit tape p hdnd hdlt h0 hL h
    obtain ⟨har, had⟩ := createDisclosureProof_shape ic dis context nonce1
      rRand eCommit vCommit tape p hdnd hdlt h
    exact partition_of_maps ic.Attributes dis hdlt h0 hL p _ har had
  · intro ic dis rRand eCommit vCommit tape sk c b0 b1 contrib q hdnd hdlt h0
      hL hb0 hcm hp
    obtain ⟨q', hq', _, har, had⟩ := builder_pipeline_shape ic dis rRand
      eCommit vCommit tape sk c hdnd hdlt b0 b1 contrib (Proof.d q) hb0 hcm hp
    obtain rfl : q = q' := by
      injection hq'
    exact partition_of_maps ic.Attributes dis hdlt h0 hL q _ har had

set_option maxRecDepth 4000 in
/-- Counterexample to C5 as stated: disclosing index 0 still produces a
proof, but that proof has key 0 in `aDisclosed` and not in `aResponses`. -/
theorem partition_fails_when_zero_disclosed :
    createDisclosureProof CREDfix [0] 100 200 1 5 7 tapeFix =
      some proofZeroDisclosed ∧
    0 ∉ mapKeys proofZeroDisclosed.aResponses ∧
    0 ∈ mapKeys proofZeroDisclosed.aDisclosed := by
  refine ⟨by decide, by decide, by decide⟩

set_option maxRecDepth 4000 in
/-- Witness for C5 at the concrete fixture. -/
theorem proofD_partition_invariant_witness :
    0 ∈ mapKeys proofFix.aResponses ∧
    mapLookup proofFix.aDisclosed 1 = listGet CREDfix.Attributes 1 := by
  have h := proofD_partition_invariant.1 CREDfix [1] 100 200 1 5 7 tapeFix
    proofFix (by decide) (by decide) (by decide) (by decide) (by decide)
  exact ⟨h.2.2.1, h.2.2.2 1 (by decide)⟩

/-! ## Claim C3: bound proof lists -/

/-- One prover's input to the bound-list orchestrator: a credential, a
disclosure choice, and the honestly sampled randomness of its builder. -/
structure HonestInput where
  ic : IdemixCredential
  disclosed : List ℕ
  rRand : ℤ
  eCommit : ℤ
  vCommit : ℤ
  tape : ℕ → ℤ

/-- Validity of one orchestrator input: a valid credential triple, a
well-formed disclosure choice hiding slot 0, and randomness inside the
sampling ranges. -/
def HonestInput.Valid (inp : HonestInput) : Prop :=
  ValidTriple inp.ic.Pk inp.ic.Signature inp.ic.Attributes ∧
  inp.disclosed.Nodup ∧
  (∀ i ∈ inp.disclosed, i < inp.ic.Attributes.length) ∧
  0 ∉ inp.disclosed ∧ 0 < inp.ic.Attributes.length ∧
  0 ≤ inp.rRand ∧ 0 ≤ inp.eCommit ∧
  inp.eCommit < 2 ^ inp.ic.Pk.Params.LeCommit ∧ 0 ≤ inp.vCommit ∧
  (∀ v, 0 ≤ inp.tape v ∧ inp.tape v < 2 ^ inp.ic.Pk.Params.LmCommit)

/-- The builder an orchestrator input creates. -/
def mkBuilder (inp : HonestInput) : Option DisclosureProofBuilder :=
  createDisclosureProofBuilder inp.ic inp.disclosed inp.rRand inp.eCommit
    inp.vCommit inp.tape

/-- A committed builder/contribution pair ready for any challenge below
`2 ^ hashBits`: `CreateProof` yields a `ProofD` carrying that challenge
whose challenge contribution reproduces the committed one, whose response
sizes check out, and whose secret-key response is `sk + c * m0`. -/
def GoodBuilder (sk : ℤ) (inp : HonestInput)
    (bc : DisclosureProofBuilder × List ℤ) : Prop :=
  ∀ c : ℤ, 0 ≤ c → c < 2 ^ hashBits →
    ∃ q : ProofD, bc.1.createProof c = some (Proof.d q) ∧ q.c = c ∧
      q.challengeContribution inp.ic.Pk = some bc.2 ∧
      q.correctResponseSizes inp.ic.Pk = true ∧
      ∀ s0 : ℤ, listGet inp.ic.Attributes 0 = some s0 →
        q.secretKeyResponse = some (sk + c * s0)
/-- Success of `DisclosureProofBuilder.Commit` given its three intermediate
modular computations. -/
theorem commit_succeeds (rs : CLSignature) (ec vc : ℤ) (ar : List (ℕ × ℤ))
    (z0 : ℤ) (dis und : List ℕ) (pk : PublicKey) (attrs : List ℤ)
    (sk Ae Sv zc : ℤ)
    (h1 : modPow rs.A ec pk.N = some Ae)
    (h2 : modPow pk.S vc pk.N = some Sv)
    (h3 : commitZLoop pk (mapInsert ar 0 sk) (Ae * Sv % pk.N) und = some zc) :
    DisclosureProofBuilder.commit ⟨rs, ec, vc, ar, z0, dis, und, pk, attrs⟩ sk
      = some (⟨rs, ec, vc, mapInsert ar 0 sk, zc, dis, und, pk, attrs⟩,
        [rs.A, zc]) := by
  unfold DisclosureProofBuilder.commit
  simp only [Option.bind_eq_bind]
  rw [h1]
  simp only [Option.some_bind]
  rw [h2]
  simp only [Option.some_bind]
  rw [h3]
  simp only [Option.some_bind, Option.pure_def]

/-- Success of `DisclosureProofBuilder.CreateProof` given its two response
maps. -/
theorem createProof_succeeds (rs : CLSignature) (ec vc : ℤ)
    (ar : List (ℕ × ℤ)) (z0 : ℤ) (dis und : List ℕ) (pk : PublicKey)
    (attrs : List ℤ) (c : ℤ) (ars ads : List (ℕ × ℤ))
    (h1 : buildAResponses c attrs ar und [] = some ars)
    (h2 : buildADisclosed attrs dis [] = some ads) :
    DisclosureProofBuilder.createProof ⟨rs, ec, vc, ar, z0, dis, und, pk,
      attrs⟩ c = some (Proof.d ⟨c, rs.A, ec + c * (rs.E -
        2 ^ (pk.Params.Le - 1)), vc + c * rs.V, ars, ads⟩) := by
  unfold DisclosureProofBuilder.createProof
  simp only [Option.bind_eq_bind]
  rw [h1]
  simp only [Option.some_bind]
  rw [h2]
  simp only [Option.some_bind, Option.pure_def]

/-- Honest pipeline of a single builder: creation and commitment succeed
and produce a `GoodBuilder`. -/
theorem builder_honest_pipeline (inp : HonestInput) (hv : inp.Valid)
    (sk : ℤ) (hsk0 : 0 ≤ sk) (hskU : sk < 2 ^ inp.ic.Pk.Params.LmCommit) :
    ∃ (b0 b1 : DisclosureProofBuilder) (contrib : List ℤ),
      mkBuilder inp = some b0 ∧ b0.commit sk = some (b1, contrib) ∧
      GoodBuilder sk inp (b1, contrib) := by
  obtain ⟨hvt, hdnd, hdlt, hd0, hL, hr, hec0, hecU, hvc0, htape⟩ := hv
  have hundnd := undisclosedSpec_nodup inp.disclosed inp.ic.Attributes.length
  have hundlt : ∀ v ∈ undisclosedSpec inp.disclosed inp.ic.Attributes.length,
      v < inp.ic.Attributes.length :=
    fun v hvv =>
      ((mem_undisclosedSpec inp.disclosed inp.ic.Attributes.length v).mp hvv).1
  have hγr : ∀ v, 0 ≤ (if v = 0 then sk else inp.tape v) ∧
      (if v = 0 then sk else inp.tape v) < 2 ^ inp.ic.Pk.Params.LmCommit := by
    intro v
    by_cases hv0 : v = 0
    · rw [if_pos hv0]
      exact ⟨hsk0, hskU⟩
    · rw [if_neg hv0]
      exact htape v
  have hlook : ∀ v ∈ undisclosedSpec inp.disclosed inp.ic.Attributes.length,
      mapLookup (mapInsert (buildRandomizers inp.tape
        (undisclosedSpec inp.disclosed inp.ic.Attributes.length) []) 0 sk) v =
        some (if v = 0 then sk else inp.tape v) := by
    intro v hvv
    rw [mapLookup_insert]
    by_cases hv0 : v = 0
    · simp [hv0]
    · rw [if_neg hv0, if_neg hv0, mapLookup_buildRandomizers]
      simp [hvv]
  obtain ⟨Ae, Sv, zc, haeN, hsvN, hzcEq, hcore⟩ := honest_core inp.ic.Pk
    inp.ic.Signature inp.ic.Attributes hvt inp.disclosed hdnd hdlt inp.rRand
    inp.eCommit inp.vCommit hr hec0 hecU hvc0
    (fun v => if v = 0 then sk else inp.tape v) hγr
    (mapInsert (buildRandomizers inp.tape
      (undisclosedSpec inp.disclosed inp.ic.Attributes.length) []) 0 sk) hlook
  have hb0 : mkBuilder inp = some
      ⟨inp.ic.Signature.randomize inp.ic.Pk inp.rRand, inp.eCommit,
        inp.vCommit,
        buildRandomizers inp.tape
          (undisclosedSpec inp.disclosed inp.ic.Attributes.length) [],
        0, inp.disclosed,
        undisclosedSpec inp.disclosed inp.ic.Attributes.length,
        inp.ic.Pk, inp.ic.Attributes⟩ := by
    unfold mkBuilder createDisclosureProofBuilder
    rw [getUndisclosedAttributes_eq inp.disclosed inp.ic.Attributes.length hdlt]
    rfl
  have hcm := commit_succeeds (inp.ic.Signature.randomize inp.ic.Pk inp.rRand)
    inp.eCommit inp.vCommit
    (buildRandomizers inp.tape
      (undisclosedSpec inp.disclosed inp.ic.Attributes.length) [])
    0 inp.disclosed (undisclosedSpec inp.disclosed inp.ic.Attributes.length)
    inp.ic.Pk inp.ic.Attributes sk Ae Sv zc haeN hsvN hzcEq
  refine ⟨_, _, _, hb0, hcm, ?_⟩
  unfold GoodBuilder
  intro c hc0 hcU
  have haresp := buildAResponses_eq c inp.ic.Attributes
    (mapInsert (buildRandomizers inp.tape
      (undisclosedSpec inp.disclosed inp.ic.Attributes.length) []) 0 sk)
    (fun v => if v = 0 then sk else inp.tape v)
    (undisclosedSpec inp.disclosed inp.ic.Attributes.length) [] hundnd hundlt
    hlook (by intro v hv'; simp [mapKeys])
  have hadis := buildADisclosed_eq inp.ic.Attributes inp.disclosed [] hdnd
    hdlt (by intro v hv'; simp [mapKeys])
  have hp := createProof_succeeds
    (inp.ic.Signature.randomize inp.ic.Pk inp.rRand) inp.eCommit inp.vCommit
    (mapInsert (buildRandomizers inp.tape
      (undisclosedSpec inp.disclosed inp.ic.Attributes.length) []) 0 sk)
    zc inp.disclosed (undisclosedSpec inp.disclosed inp.ic.Attributes.length)
    inp.ic.Pk inp.ic.Attributes c _ _ haresp hadis
  obtain ⟨hrz, hsz⟩ := hcore c hc0 hcU
    (⟨c, (inp.ic.Signature.randomize inp.ic.Pk inp.rRand).A,
      inp.eCommit + c * ((inp.ic.Signature.randomize inp.ic.Pk inp.rRand).E -
        2 ^ (inp.ic.Pk.Params.Le - 1)),
      inp.vCommit + c * (inp.ic.Signature.randomize inp.ic.Pk inp.rRand).V,
      (undisclosedSpec inp.disclosed inp.ic.Attributes.length).map
        (fun v => (v, (if v = 0 then sk else inp.tape v) +
          c * inp.ic.Attributes.getD v 0)),
      inp.disclosed.map (fun v => (v, inp.ic.Attributes.getD v 0))⟩ : ProofD)
    rfl rfl rfl rfl rfl rfl
  refine ⟨⟨c, (inp.ic.Signature.randomize inp.ic.Pk inp.rRand).A,
      inp.eCommit + c * ((inp.ic.Signature.randomize inp.ic.Pk inp.rRand).E -
        2 ^ (inp.ic.Pk.Params.Le - 1)),
      inp.vCommit + c * (inp.ic.Signature.randomize inp.ic.Pk inp.rRand).V,
      (undisclosedSpec inp.disclosed inp.ic.Attributes.length).map
        (fun v => (v, (if v = 0 then sk else inp.tape v) +
          c * inp.ic.Attributes.getD v 0)),
      inp.disclosed.map (fun v => (v, inp.ic.Attributes.getD v 0))⟩,
    ?_, rfl, ?_, hsz, ?_⟩
  · exact hp
  · unfold ProofD.challengeContribution
    rw [hrz]
    simp [Option.map_some']
  · intro s0 hs0
    have h00 : inp.ic.Attributes.getD 0 0 = s0 := by
      have h := listGet_eq_getD inp.ic.Attributes 0 hL
      rw [hs0] at h
      exact (Option.some.inj h).symm
    show mapLookup ((undisclosedSpec inp.disclosed inp.ic.Attributes.length).map
      (fun v => (v, (if v = 0 then sk else inp.tape v) +
        c * inp.ic.Attributes.getD v 0))) 0 = some (sk + c * s0)
    rw [mapLookup_map_self (fun v => (if v = 0 then sk else inp.tape v) +
      c * inp.ic.Attributes.getD v 0)
      (undisclosedSpec inp.disclosed inp.ic.Attributes.length) 0
      ((mem_undisclosedSpec inp.disclosed inp.ic.Attributes.length 0).mpr
        ⟨hL, hd0⟩)]
    refine congrArg some ?_
    show (if (0 : ℕ) = 0 then sk else inp.tape 0) +
      c * inp.ic.Attributes.getD 0 0 = sk + c * s0
    rw [if_pos rfl, h00]

/-- The builders of a list of orchestrator inputs, in order (`none` as soon
as one creation fails). -/
def mkBuilders : List HonestInput → Option (List DisclosureProofBuilder)
  | [] => some []
  | inp :: rest => do
      let b ← mkBuilder inp
      let bs ← mkBuilders rest
      pure (b :: bs)

/-- Commit phase of `BuildProofList` over honest inputs: every builder is
created, `commitAll` succeeds, and each committed builder is a
`GoodBuilder` for its input. -/
theorem commitAll_honest (sk : ℤ) (hsk0 : 0 ≤ sk) :
    ∀ (inputs : List HonestInput),
      (∀ inp ∈ inputs, inp.Valid) →
      (∀ inp ∈ inputs, sk < 2 ^ inp.ic.Pk.Params.LmCommit) →
      ∃ (bs : List DisclosureProofBuilder)
        (bcs : List (DisclosureProofBuilder × List ℤ)),
        mkBuilders inputs = some bs ∧
        commitAll sk bs = some (bcs.map Prod.fst,
          (bcs.map Prod.snd).flatten) ∧
        List.Forall₂ (GoodBuilder sk) inputs bcs := by
  intro inputs
  induction inputs with
  | nil =>
      intro _ _
      exact ⟨[], [], rfl, rfl, List.Forall₂.nil⟩
  | cons inp rest ih =>
      intro hval hskU
      obtain ⟨b0, b1, contrib, hb0, hcm, hgood⟩ :=
        builder_honest_pipeline inp (hval inp (List.mem_cons_self inp rest))
          sk hsk0 (hskU inp (List.mem_cons_self inp rest))
      obtain ⟨bs, bcs, hbs, hca, hfa⟩ := ih
        (fun i hi => hval i (List.mem_cons_of_mem inp hi))
        (fun i hi => hskU i (List.mem_cons_of_mem inp hi))
      refine ⟨b0 :: bs, (b1, contrib) :: bcs, ?_, ?_,
        List.Forall₂.cons hgood hfa⟩
      · simp only [mkBuilders]
        rw [hb0]
        simp only [Option.bind_eq_bind, Option.some_bind]
        rw [hbs]
        simp only [Option.some_bind, Option.pure_def]
      · simp only [commitAll]
        rw [hcm]
        simp only [Option.bind_eq_bind, Option.some_bind]
        rw [hca]
        simp only [Option.some_bind, Option.pure_def, List.map_cons,
          List.flatten_cons]

/-- Response phase of `BuildProofList` over committed honest builders: for
any in-range challenge, `createProofsAll` succeeds, the proofs reproduce
the committed contributions, and each proof verifies against the shared
challenge with the bound secret-key response. -/
theorem createProofsAll_honest (sk c : ℤ) (hc0 : 0 ≤ c)
    (hcU : c < 2 ^ hashBits) :
    ∀ (inputs : List HonestInput)
      (bcs : List (DisclosureProofBuilder × List ℤ)),
      List.Forall₂ (GoodBuilder sk) inputs bcs →
      ∃ qs : List ProofD,
        createProofsAll c (bcs.map Prod.fst) = some (qs.map Proof.d) ∧
        challengeContributions (qs.map Proof.d)
          (inputs.map (fun inp => inp.ic.Pk)) =
          some ((bcs.map Prod.snd).flatten) ∧
        qs.length = inputs.length ∧
        List.Forall₂ (fun inp q =>
          (∀ t : ℤ, listGet inp.ic.Attributes 0 = some t →
            q.secretKeyResponse = some (sk + c * t)) ∧
          q.verifyWithChallenge inp.ic.Pk c = true) inputs qs := by
  intro inputs bcs hfa
  induction hfa with
  | nil => exact ⟨[], rfl, rfl, rfl, List.Forall₂.nil⟩
  | @cons inp bc l1 l2 hg hrest ih =>
      obtain ⟨qs, hqs, hcc, hlen, hfa2⟩ := ih
      obtain ⟨q, hq, hqc, hqcc, hqsz, hqsk⟩ := hg c hc0 hcU
      have hvw : q.verifyWithChallenge inp.ic.Pk c = true := by
        unfold ProofD.verifyWithChallenge
        rw [hqsz, hqc]
        simp
      refine ⟨q :: qs, ?_, ?_, ?_, List.Forall₂.cons ⟨hqsk, hvw⟩ hfa2⟩
      · simp only [List.map_cons, createProofsAll]
        rw [hq]
        simp only [Option.bind_eq_bind, Option.some_bind]
        rw [hqs]
        simp only [Option.some_bind, Option.pure_def]
      · simp only [List.map_cons, List.flatten_cons, challengeContributions,
          Proof.challengeContribution]
        rw [hqcc]
        simp only [Option.bind_eq_bind, Option.some_bind]
        rw [hcc]
        simp only [Option.some_bind, Option.pure_def]
      · rw [List.length_cons, List.length_cons, hlen]

/-- Fixing the shared secret-key value turns the per-input facts of the
response phase into a uniform secret-key response and the bound-loop
relation. -/
theorem forall2_skResponses (c sk s0 : ℤ) :
    ∀ (l1 : List HonestInput) (l2 : List ProofD),
      List.Forall₂ (fun inp q =>
        (∀ t : ℤ, listGet inp.ic.Attributes 0 = some t →
          q.secretKeyResponse = some (sk + c * t)) ∧
        q.verifyWithChallenge inp.ic.Pk c = true) l1 l2 →
      (∀ inp ∈ l1, listGet inp.ic.Attributes 0 = some s0) →
      (∀ q ∈ l2, q.secretKeyResponse = some (sk + c * s0)) ∧
      List.Forall₂ (fun inp q =>
        q.secretKeyResponse = some (sk + c * s0) ∧
        q.verifyWithChallenge inp.ic.Pk c = true) l1 l2 := by
  intro l1 l2 h
  induction h with
  | nil =>
      intro _
      exact ⟨fun q hq => absurd hq (List.not_mem_nil q), List.Forall₂.nil⟩
  | @cons inp q l1' l2' hg hrest ih =>
      intro hs
      obtain ⟨ih1, ih2⟩ := ih (fun i hi => hs i (List.mem_cons_of_mem inp hi))
      have hq0 : q.secretKeyResponse = some (sk + c * s0) :=
        hg.1 s0 (hs inp (List.mem_cons_self inp l1'))
      refine ⟨?_, List.Forall₂.cons ⟨hq0, hg.2⟩ ih2⟩
      intro q' hq'
      rcases List.mem_cons.mp hq' with h1 | h1
      · exact h1 ▸ hq0
      · exact ih1 q' h1

/-- The bound loop of `ProofList.Verify` accepts a list of proofs that all
carry the expected secret-key response and verify against the shared
challenge. -/
theorem verifyBoundLoop_honest (esk ch : ℤ) :
    ∀ (l1 : List HonestInput) (l2 : List ProofD),
      List.Forall₂ (fun inp q =>
        q.secretKeyResponse = some esk ∧
        q.verifyWithChallenge inp.ic.Pk ch = true) l1 l2 →
      verifyBoundLoop (some esk) ch (l2.map Proof.d)
        (l1.map (fun inp => inp.ic.Pk)) = some true := by
  intro l1 l2 h
  induction h with
  | nil => rfl
  | @cons inp q l1' l2' hg hrest ih =>
      obtain ⟨hsk', hvw⟩ := hg
      simp only [List.map_cons, verifyBoundLoop, Option.bind_eq_bind,
        Option.some_bind, Proof.secretKeyResponse]
      rw [hsk']
      simp only [Option.some_bind]
      rw [if_neg (not_not_intro rfl), if_neg ?side]
      case side =>
        rw [show Proof.verifyWithChallenge (Proof.d q) inp.ic.Pk ch =
          ProofD.verifyWithChallenge q inp.ic.Pk ch from rfl, hvw]
        exact not_not_intro rfl
      exact ih

/-- C3 (amended): for every non-empty list of honest bound-proof builders
whose credentials share the secret-key attribute `attrs[0] = s0`, and every
context, nonce and in-range shared commitment `sk`, `BuildProofList`
returns a proof list in which every proof's `SecretKeyResponse()` is
identical and which `ProofList.Verify` accepts with `shouldBeBound = true`
against the matching public keys in order. -/
theorem bound_proofList_same_secret_key_verifies
    (inputs : List HonestInput) (context nonce sk s0 : ℤ)
    (hne : inputs ≠ [])
    (hval : ∀ inp ∈ inputs, inp.Valid)
    (hsk0 : 0 ≤ sk)
    (hskU : ∀ inp ∈ inputs, sk < 2 ^ inp.ic.Pk.Params.LmCommit)
    (hs0 : ∀ inp ∈ inputs, listGet inp.ic.Attributes 0 = some s0) :
    ∃ (bs : List DisclosureProofBuilder) (pl : List Proof),
      mkBuilders inputs = some bs ∧
      buildProofList context nonce bs sk = some pl ∧
      (∀ p ∈ pl, ∀ p' ∈ pl, p.secretKeyResponse = p'.secretKeyResponse) ∧
      ProofList.verify pl (inputs.map (fun inp => inp.ic.Pk)) context nonce
        true = some true := by
  obtain ⟨bs, bcs, hbs, hca, hfa⟩ := commitAll_honest sk hsk0 inputs hval hskU
  obtain ⟨qs, hqs, hcc, hlen, hfa2⟩ := createProofsAll_honest sk
    (createChallenge context nonce ((bcs.map Prod.snd).flatten))
    (hashCommit_nonneg _) (hashCommit_lt _) inputs bcs hfa
  obtain ⟨hallsk, hfa3⟩ := forall2_skResponses
    (createChallenge context nonce ((bcs.map Prod.snd).flatten)) sk s0
    inputs qs hfa2 hs0
  cases qs with
  | nil =>
      have : inputs = [] := List.length_eq_zero.mp (by simpa using hlen.symm)
      exact absurd this hne
  | cons q0 qrest =>
      refine ⟨bs, (q0 :: qrest).map Proof.d, hbs, ?_, ?_, ?_⟩
      · unfold buildProofList
        rw [hca]
        simp only [Option.bind_eq_bind, Option.some_bind]
        exact hqs
      · intro p hp p' hp'
        obtain ⟨q, hqmem, rfl⟩ := List.mem_map.mp hp
        obtain ⟨q', hqmem', rfl⟩ := List.mem_map.mp hp'
        show q.secretKeyResponse = q'.secretKeyResponse
        rw [hallsk q hqmem, hallsk q' hqmem']
      · have hlens : ((q0 :: qrest).map Proof.d).length =
            (inputs.map (fun inp => inp.ic.Pk)).length := by
          rw [List.length_map, List.length_map]
          exact hlen
        unfold ProofList.verify
        rw [if_neg (by simp), if_neg (not_not_intro hlens), if_pos rfl]
        rw [hcc]
        simp only [Option.bind_eq_bind, Option.some_bind, List.map_cons]
        rw [show Proof.secretKeyResponse (Proof.d q0) =
          some (sk + createChallenge context nonce
            ((bcs.map Prod.snd).flatten) * s0) from
          hallsk q0 (List.mem_cons_self q0 qrest)]
        exact verifyBoundLoop_honest
          (sk + createChallenge context nonce
            ((bcs.map Prod.snd).flatten) * s0)
          (createChallenge context nonce ((bcs.map Prod.snd).flatten))
          inputs (q0 :: qrest) hfa3

/-- A second valid credential over `PKfix` whose secret-key attribute
differs from `CREDfix`'s (`attrs[0] = 3` instead of `1`). -/
def CRED2fix : IdemixCredential :=
  { Signature := { A := 3, E := 17, V := 12 }, Pk := PKfix
    Attributes := [3, 2] }

/-- Two honest orchestrator inputs over credentials with distinct
secret-key attributes. -/
def inputsMismatchFix : List HonestInput :=
  [⟨CREDfix, [1], 1, 5, 7, tapeFix⟩, ⟨CRED2fix, [1], 1, 6, 8, fun _ => 3⟩]

/-- The builders the mismatched inputs create. -/
def buildersMismatchFix : List DisclosureProofBuilder :=
  (mkBuilders inputsMismatchFix).getD []

/-- The bound proof list built from the mismatched builders. -/
def proofListMismatchFix : List Proof :=
  (buildProofList 100 200 buildersMismatchFix 9).getD []

set_option maxRecDepth 4000 in
/-- C3 counterexample: over two valid credentials whose secret-key
attributes differ, `BuildProofList` returns a bound proof list whose
`SecretKeyResponse()` values differ and which bound `ProofList.Verify`
rejects, so the claim fails for general builder lists. -/
theorem bound_list_rejected_for_distinct_secret_keys :
    ValidTriple CRED2fix.Pk CRED2fix.Signature CRED2fix.Attributes ∧
    mkBuilders inputsMismatchFix = some buildersMismatchFix ∧
    buildProofList 100 200 buildersMismatchFix 9 =
      some proofListMismatchFix ∧
    ¬ (∀ p ∈ proofListMismatchFix, ∀ p' ∈ proofListMismatchFix,
        p.secretKeyResponse = p'.secretKeyResponse) ∧
    ProofList.verify proofListMismatchFix [PKfix, PKfix] 100 200 true =
      some false := by
  refine ⟨⟨by decide, by decide, by decide, by decide, by decide, by decide,
    by decide, by decide, by decide, by decide, by decide, by decide⟩,
    by decide, by decide, by decide, by decide⟩

/-- Two honest orchestrator inputs over the same credential, hence the
same secret-key attribute. -/
def inputsBoundFix : List HonestInput :=
  [⟨CREDfix, [1], 1, 5, 7, tapeFix⟩, ⟨CREDfix, [], 2, 6, 8, fun _ => 3⟩]

set_option maxRecDepth 4000 in
/-- Witness for C3 at the concrete fixture. -/
theorem bound_proofList_same_secret_key_verifies_witness :
    ProofList.verify
      ((buildProofList 100 200 ((mkBuilders inputsBoundFix).getD []) 9).getD
        []) [PKfix, PKfix] 100 200 true = some true := by
  obtain ⟨bs, pl, hbs, hpl, hsk, hver⟩ :=
    bound_proofList_same_secret_key_verifies inputsBoundFix 100 200 9 1
      (by simp [inputsBoundFix])
      (by
        intro inp hinp
        rcases List.mem_cons.mp hinp with rfl | hinp
        · exact ⟨⟨by decide, by decide, by decide, by decide, by decide,
            by decide, by decide, by decide, by decide, by decide, by decide,
            by decide⟩, by decide, by decide, by decide, by decide,
            by decide, by decide, by decide, by decide,
            fun v => ⟨by norm_num [tapeFix],
              by norm_num [tapeFix, CREDfix, PKfix, Pfix]⟩⟩
        · rcases List.mem_cons.mp hinp with rfl | hinp
          · exact ⟨⟨by decide, by decide, by decide, by decide, by decide,
              by decide, by decide, by decide, by decide, by decide,
              by decide, by decide⟩, by decide, by decide, by decide,
              by decide, by decide, by decide, by decide, by decide,
              fun v => ⟨by norm_num, by norm_num [CREDfix, PKfix, Pfix]⟩⟩
          · exact absurd hinp (List.not_mem_nil inp))
      (by decide)
      (by
        intro inp hinp
        rcases List.mem_cons.mp hinp with rfl | hinp
        · decide
        · rcases List.mem_cons.mp hinp with rfl | hinp
          · decide
          · exact absurd hinp (List.not_mem_nil inp))
      (by
        intro inp hinp
        rcases List.mem_cons.mp hinp with rfl | hinp
        · decide
        · rcases List.mem_cons.mp hinp with rfl | hinp
          · decide
          · exact absurd hinp (List.not_mem_nil inp))
  have h1 : (mkBuilders inputsBoundFix).getD [] = bs := by
    rw [hbs]
    rfl
  have h2 : (buildProofList 100 200 ((mkBuilders inputsBoundFix).getD [])
      9).getD [] = pl := by
    rw [h1, hpl]
    rfl
  have h3 : inputsBoundFix.map (fun inp => inp.ic.Pk) = [PKfix, PKfix] := rfl
  rw [h2, ← h3]
  exact hver

end Gabi
